import Mathlib

/-!
Verification of the yawal write-ahead-logging package (package `wal`).

This file is a shallow embedding of the package's core data model:
offsets (signed 64-bit nanosecond timestamps), chunks (a byte slice
holding an 8-byte little-endian offset followed by the payload), the
size-bounded `Segment` buffer, the in-memory `MemorySink`, the buffered
`Logger` writer and the sequential replay `Reader`.

Machine integers are modelled as `Nat`/`Int` with explicit reductions
modulo 2^64 where the Go code performs `uint64`/`int64` conversions.
Byte slices are `List Nat` whose well-formed elements are below 256.
Go runtime panics (out-of-range slice index, nil dereference) are
modelled as `none` / a dedicated `crash` result constructor.
-/

/-- 2^64, the modulus of Go's `uint64` arithmetic (kept as a literal so
terms reduce without unfolding `Nat.pow`). -/
def two64 : Nat := 18446744073709551616

/-- 2^63, the magnitude bound of Go's `int64`. -/
def two63 : Nat := 9223372036854775808

/-- Reinterpret a `uint64` value (a natural below 2^64) as Go's `int64`,
i.e. subtract 2^64 from values at or above 2^63. -/
def int64OfUint64 (n : Nat) : Int :=
  if n < two63 then (n : Int) else (n : Int) - (two64 : Int)

/-- Go's `uint64(o)` conversion of an `int64` value: reduce modulo 2^64. -/
def toUint64 (o : Int) : Nat := (o % (two64 : Int)).toNat

/-- Wrapping `uint64` subtraction, as in Go's `s.size - n` on `uint64`s. -/
def u64sub (a b : Nat) : Nat := (a % two64 + (two64 - b % two64)) % two64

/- ----------------------------------------------------------------- -/
/- Offset (offset.go): a signed 64-bit nanosecond timestamp.          -/
/- ----------------------------------------------------------------- -/

/-- Offset: `type Offset int64`. -/
abbrev Offset := Int

/-- ZeroOffset: the oldest-possible offset, value 0. -/
def ZeroOffset : Offset := 0

/-- Offset.Before: `time.Unix(0, int64(o)).Before(time.Unix(0, int64(b)))`,
which for nanosecond instants is exactly `o < b`. -/
def Offset.Before (o b : Offset) : Bool := decide (o < b)

/-- Offset.After: the source body is
`time.Unix(0, int64(o)).Before(time.Unix(0, int64(b)))` — it calls
`Before`, not `After`, so it computes `o < b` (not `o > b` as its own
doc comment states). -/
def Offset.After (o b : Offset) : Bool := Offset.Before o b

/-- Offset.Equal: `time.Unix(0, int64(o)).Equal(time.Unix(0, int64(b)))`,
i.e. numeric equality of the nanosecond values. -/
def Offset.Equal (o b : Offset) : Bool := decide (o = b)

/-- Offset.Within: `int64(a) <= int64(o) && int64(o) <= int64(b)`. -/
def Offset.Within (o a b : Offset) : Bool := decide (a ≤ o) && decide (o ≤ b)

/-- Go `int64` wrap-around increment, used for the Reader's `r.off + 1`. -/
def i64succ (o : Int) : Int := int64OfUint64 ((toUint64 o + 1) % two64)

/- ----------------------------------------------------------------- -/
/- Little-endian 8-byte encoding (binary.LittleEndian.PutUint64).     -/
/- ----------------------------------------------------------------- -/

/-- `leBytes k n`: the `k` little-endian base-256 bytes of `n`
(`binary.LittleEndian.PutUint64` writes `leBytes 8 n`). -/
def leBytes : Nat → Nat → List Nat
  | 0, _ => []
  | k + 1, n => n % 256 :: leBytes k (n / 256)

/-- `leNat bs`: the value read back from little-endian bytes
(`binary.LittleEndian.Uint64`). -/
def leNat : List Nat → Nat
  | [] => 0
  | b :: bs => b + 256 * leNat bs

/- ----------------------------------------------------------------- -/
/- base64.RawStdEncoding (standard alphabet, no padding).             -/
/- ----------------------------------------------------------------- -/

/-- The byte for index `i` of the standard base64 alphabet
`A-Z a-z 0-9 + /`. -/
def b64char (i : Nat) : Nat :=
  if i < 26 then 65 + i
  else if i < 52 then 97 + (i - 26)
  else if i < 62 then 48 + (i - 52)
  else if i = 62 then 43 else 47

/-- The index of a byte in the standard base64 alphabet, `none` for
bytes outside the alphabet (Go reports `CorruptInputError`). -/
def b64idx (b : Nat) : Option Nat :=
  if 65 ≤ b ∧ b ≤ 90 then some (b - 65)
  else if 97 ≤ b ∧ b ≤ 122 then some (26 + (b - 97))
  else if 48 ≤ b ∧ b ≤ 57 then some (52 + (b - 48))
  else if b = 43 then some 62
  else if b = 47 then some 63
  else none

/-- `base64.RawStdEncoding.Encode`: 3 input bytes become 4 alphabet
bytes; a 1- or 2-byte remainder becomes 2 or 3 bytes (no padding). -/
def b64encode : List Nat → List Nat
  | [] => []
  | [a] => [b64char (a / 4), b64char (a % 4 * 16)]
  | [a, b] => [b64char (a / 4), b64char (a % 4 * 16 + b / 16), b64char (b % 16 * 4)]
  | a :: b :: c :: rest =>
    b64char (a / 4) :: b64char (a % 4 * 16 + b / 16) ::
      b64char (b % 16 * 4 + c / 64) :: b64char (c % 64) :: b64encode rest

/-- `base64.RawStdEncoding.Decode`: the inverse of `b64encode`; fails on
a 1-byte remainder or a byte outside the alphabet.  Like Go's non-Strict
decoder it does not reject non-zero trailing bits. -/
def b64decode : List Nat → Option (List Nat)
  | [] => some []
  | [_] => none
  | [w, x] =>
    match b64idx w, b64idx x with
    | some i, some j => some [i * 4 + j / 16]
    | _, _ => none
  | [w, x, y] =>
    match b64idx w, b64idx x, b64idx y with
    | some i, some j, some k => some [i * 4 + j / 16, j % 16 * 16 + k / 4]
    | _, _, _ => none
  | w :: x :: y :: z :: rest =>
    match b64idx w, b64idx x, b64idx y, b64idx z, b64decode rest with
    | some i, some j, some k, some l, some more =>
      some ((i * 4 + j / 16) :: (j % 16 * 16 + k / 4) :: (k % 4 * 64 + l) :: more)
    | _, _, _, _, _ => none

/- ----------------------------------------------------------------- -/
/- Decimal formatting/parsing (strconv.FormatInt / strconv.ParseInt). -/
/- ----------------------------------------------------------------- -/

/-- Big-endian decimal digit bytes of `n` (empty for 0).  The first
argument is structural fuel; any fuel at least `n` is exact. -/
def natToDec : Nat → Nat → List Nat
  | 0, _ => []
  | fuel + 1, n => if n = 0 then [] else natToDec fuel (n / 10) ++ [n % 10 + 48]

/-- Decimal byte string of a natural (`strconv.FormatInt` magnitude part). -/
def formatNat (n : Nat) : List Nat := if n = 0 then [48] else natToDec n n

/-- `strconv.FormatInt(int64(o), 10)` as a byte list; 45 is the minus
sign. -/
def formatInt (o : Int) : List Nat :=
  if o < 0 then 45 :: formatNat (-o).toNat else formatNat o.toNat

/-- Digit-accumulating loop of `strconv.ParseInt`: fails on a byte
outside `0-9`. -/
def parseDigits : List Nat → Nat → Option Nat
  | [], acc => some acc
  | b :: bs, acc =>
    if 48 ≤ b ∧ b ≤ 57 then parseDigits bs (acc * 10 + (b - 48)) else none

/-- `strconv.ParseInt(s, 10, 64)`: optional sign, at least one digit,
and the `int64` range check (positive cutoff 2^63 - 1, negative 2^63). -/
def parseInt64 (s : List Nat) : Option Int :=
  match s with
  | [] => none
  | b :: rest =>
    if b = 45 then
      match rest, parseDigits rest 0 with
      | _ :: _, some n => if n ≤ two63 then some (-(n : Int)) else none
      | _, _ => none
    else if b = 43 then
      match rest, parseDigits rest 0 with
      | _ :: _, some n => if n < two63 then some ((n : Int)) else none
      | _, _ => none
    else
      match parseDigits (b :: rest) 0 with
      | some n => if n < two63 then some ((n : Int)) else none
      | none => none

/- ----------------------------------------------------------------- -/
/- chunk (chunk.go): an 8-byte little-endian offset + payload bytes.  -/
/- ----------------------------------------------------------------- -/

/-- chunk: `type chunk []byte`; a byte list whose first 8 bytes hold the
little-endian `uint64` image of the offset. -/
abbrev chunk := List Nat

/-- chunkOffsetSize = 8. -/
def chunkOffsetSize : Nat := 8

/-- newChunkOffset: allocate `8 + len(data)` bytes, put the offset in
little-endian order, copy the payload after it.  The offset argument
models the `NewOffset()` clock value supplied by `newChunk`. -/
def newChunkOffset (data : List Nat) (o : Offset) : chunk :=
  leBytes chunkOffsetSize (toUint64 o) ++ data

/-- chunk.Offset: `Offset(binary.LittleEndian.Uint64(c[:8]))`. -/
def chunkOffset (c : chunk) : Int := int64OfUint64 (leNat (c.take chunkOffsetSize))

/-- chunk.Data: `c[8:]`. -/
def chunkData (c : chunk) : List Nat := c.drop chunkOffsetSize

/-- chunk.MarshalText: decimal offset, the `:` separator (byte 58), then
the base64 (RawStdEncoding) image of the payload. -/
def chunkMarshalText (c : chunk) : List Nat :=
  formatInt (chunkOffset c) ++ [58] ++ b64encode (chunkData c)

/-- chunk.UnmarshalText: split at the first `:` (byte 58); parse the
prefix as a decimal `int64`, base64-decode the suffix, and rebuild the
byte representation.  `none` models the error returns. -/
def chunkUnmarshalText (p : List Nat) : Option chunk :=
  match p.dropWhile (fun b => b != 58) with
  | [] => none
  | _ :: post =>
    match parseInt64 (p.takeWhile (fun b => b != 58)), b64decode post with
    | some off, some data => some (leBytes chunkOffsetSize (toUint64 off) ++ data)
    | _, _ => none

/-- A well-formed chunk: at least the 8 offset bytes, all bytes below
256 (what `newChunkOffset` and `UnmarshalText` produce). -/
def WFChunk (c : chunk) : Prop := 8 ≤ c.length ∧ ∀ b ∈ c, b < 256

instance (c : chunk) : Decidable (WFChunk c) := by
  unfold WFChunk
  infer_instance

/- ----------------------------------------------------------------- -/
/- Segment (segment code in the wal package).                         -/
/- ----------------------------------------------------------------- -/

/-- Segment: capacity (`size`, a `uint64`), the chunk list, and the
read cursor `chunkIdx` (a Go `int`, initially -1). -/
structure Segment where
  size : Nat
  chunks : List chunk
  chunkIdx : Int
deriving DecidableEq

/-- DefaultSegmentSize = 16777216 (16 MiB). -/
def DefaultSegmentSize : Nat := 16777216

/-- NewSegmentSize. -/
def NewSegmentSize (size : Nat) : Segment :=
  { size := size, chunks := [], chunkIdx := -1 }

/-- NewSegment. -/
def NewSegment : Segment := NewSegmentSize DefaultSegmentSize

/-- Segment.Size: the sum of the raw (undecoded) chunk byte lengths. -/
def segRawSize (s : Segment) : Nat := (s.chunks.map List.length).sum

/-- Segment.remaining: `int64(s.size - n)` where `n` is the `uint64` sum
of chunk lengths — wrap-around `uint64` subtraction reinterpreted as
`int64`. -/
def Segment.remaining (s : Segment) : Int :=
  int64OfUint64 (u64sub s.size (segRawSize s))

/-- The error values relevant to the embedded operations.  `diverge`
stands for the unbounded `goto WriteData` retry loop in `Logger.Write`
(which in Go would spin forever; it is unreachable for capacities below
2^63). -/
inductive WalErr
  | notEnoughSpace
  | tooBig
  | loggerClosed
  | diverge
deriving DecidableEq

/-- Segment.Write: empty payloads return immediately; a payload longer
than the remaining capacity yields ErrNotEnoughSpace and leaves the
segment untouched; otherwise a chunk stamped with the clock offset `o`
is appended.  (The Go code compares `int64(len(p)) > s.remaining()`.) -/
def Segment.Write (s : Segment) (o : Offset) (p : List Nat) : Segment × Option WalErr :=
  if p = [] then (s, none)
  else if (p.length : Int) > s.remaining then (s, some .notEnoughSpace)
  else ({ s with chunks := s.chunks ++ [newChunkOffset p o] }, none)

/-- Segment.Next: advance the read cursor unless `chunkIdx+1` equals the
chunk count. -/
def Segment.Next (s : Segment) : Segment × Bool :=
  if s.chunkIdx + 1 = (s.chunks.length : Int) then (s, false)
  else ({ s with chunkIdx := s.chunkIdx + 1 }, true)

/-- Segment.Chunk: `s.chunks[s.chunkIdx]`; `none` models the index
panic when the cursor is before the first chunk or out of range. -/
def Segment.ChunkAt (s : Segment) : Option chunk :=
  if s.chunkIdx < 0 then none else s.chunks[s.chunkIdx.toNat]?

/-- Segment.CurrentReadOffset: offset of the chunk under the cursor. -/
def Segment.CurrentReadOffset (s : Segment) : Option Offset :=
  (s.ChunkAt).map chunkOffset

/-- The `(oldest, newest)` offsets of a chunk list: `(0, 0)` when empty,
else first and last chunk offsets (the single-chunk case of the Go
switch coincides with the general one). -/
def limitsOf : List chunk → Int × Int
  | [] => (ZeroOffset, ZeroOffset)
  | c :: rest => (chunkOffset c, chunkOffset (rest.getLastD c))

/-- Segment.Limits. -/
def Segment.Limits (s : Segment) : Int × Int := limitsOf s.chunks

/-- First index at which the predicate holds (the `for ... break`
search loops in Segment.Truncate and MemorySink.LoadSegment). -/
def findFirst (p : α → Bool) : List α → Option Nat
  | [] => none
  | a :: l => if p a then some 0 else (findFirst p l).map (· + 1)

/-- Segment.Truncate: scan for the first chunk whose offset is
`After(offset)` (which, due to the flipped `Offset.After`, means
offset strictly BELOW the argument), keep the suffix from there and
adjust the read cursor; without such a chunk nothing is dropped. -/
def Segment.Truncate (s : Segment) (offset : Offset) : Segment :=
  match findFirst (fun c => Offset.After (chunkOffset c) offset) s.chunks with
  | none => s
  | some i =>
    { s with
      chunks := s.chunks.drop i,
      chunkIdx := if 0 < s.chunkIdx then s.chunkIdx - ((i : Int) + 1) else s.chunkIdx }

/-- Segment.WriteTo: each chunk's text marshalling followed by a
newline (byte 10), concatenated in order. -/
def Segment.WriteTo (s : Segment) : List Nat :=
  (s.chunks.map (fun c => chunkMarshalText c ++ [10])).flatten

/-- Segment.EncodedSize: the byte count WriteTo would produce. -/
def Segment.EncodedSize (s : Segment) : Nat :=
  (s.chunks.map (fun c => (chunkMarshalText c).length + 1)).sum

/-- `bytes.Split(p, []byte("\n"))`. -/
def splitNL : List Nat → List (List Nat)
  | [] => [[]]
  | b :: rest =>
    if b = 10 then [] :: splitNL rest
    else
      match splitNL rest with
      | [] => [[b]]
      | r :: rs => (b :: r) :: rs

/-- The row loop of Segment.ReadFrom: unmarshal each row in order,
aborting on the first failure. -/
def mapUnmarshal : List (List Nat) → Option (List chunk)
  | [] => some []
  | row :: rows =>
    match chunkUnmarshalText row, mapUnmarshal rows with
    | some c, some cs => some (c :: cs)
    | _, _ => none

/-- Segment.ReadFrom: refuses to load into a populated segment, splits
the input on newlines, skips empty rows, unmarshals every other row. -/
def Segment.ReadFrom (s : Segment) (p : List Nat) : Option Segment :=
  if s.chunks ≠ [] then none
  else
    match mapUnmarshal ((splitNL p).filter (fun row => row.length != 0)) with
    | some cs => some { s with chunks := cs }
    | none => none

/- ----------------------------------------------------------------- -/
/- MemorySink (sink_mem.go): an in-memory list of segments.           -/
/- ----------------------------------------------------------------- -/

/-- Result of `MemorySink.LoadSegment`: the index of the returned
segment, the `io.EOF` sentinel, or a runtime panic (`s.segments[0]` on
an empty sink). -/
inductive LoadRes
  | crash
  | eof
  | seg (i : Nat)
deriving DecidableEq

/-- MemorySink.LoadSegment: `ZeroOffset` returns `segments[0]`
(panicking when there are none); otherwise the first segment whose
limits contain the offset or start after it; else `io.EOF`. -/
def memLoadSegment (segs : List Segment) (offset : Offset) : LoadRes :=
  if Offset.Equal offset ZeroOffset then
    match segs with
    | [] => .crash
    | _ :: _ => .seg 0
  else
    match findFirst (fun sg =>
        Offset.Within offset (Segment.Limits sg).1 (Segment.Limits sg).2 ||
        Offset.Before offset (Segment.Limits sg).1) segs with
    | some i => .seg i
    | none => .eof

/-- MemorySink.WriteSegment: a segment whose limits are
`(ZeroOffset, ZeroOffset)` is skipped; otherwise it is appended. -/
def memWriteSegment (segs : List Segment) (sg : Segment) : List Segment :=
  if Offset.Equal (Segment.Limits sg).1 ZeroOffset &&
     Offset.Equal (Segment.Limits sg).2 ZeroOffset then segs
  else segs ++ [sg]

/-- MemorySink.Offsets: first segment's oldest and last segment's
newest; `none` models the `segments[0]` panic on an empty sink. -/
def memOffsets (segs : List Segment) : Option (Offset × Offset) :=
  match segs with
  | [] => none
  | first :: rest =>
    some ((Segment.Limits first).1, (Segment.Limits (rest.getLastD first)).2)

/-- The leading-run count of MemorySink.Truncate's removal loop (it
breaks at the first segment whose newest offset is not before the
argument). -/
def countRemoved (offset : Offset) : List Segment → Nat
  | [] => 0
  | sg :: rest =>
    if Offset.Before (Segment.Limits sg).2 offset then 1 + countRemoved offset rest
    else 0

/-- MemorySink.Truncate: drop the leading run of segments whose newest
offset is before the argument, then — unconditionally indexing
`segments[0]`, which panics (`none`) when nothing survives — partially
truncate the new first segment if the offset lies within its limits. -/
def memTruncate (segs : List Segment) (offset : Offset) : Option (List Segment) :=
  let removed := countRemoved offset segs
  let segs1 := segs.drop removed
  match segs1 with
  | [] => none
  | first :: rest =>
    if Offset.Within offset (Segment.Limits first).1 (Segment.Limits first).2 then
      some (Segment.Truncate first offset :: rest)
    else
      some (first :: rest)

/-- MemorySink.NumSegments. -/
def memNumSegments (segs : List Segment) : Nat := segs.length

/- ----------------------------------------------------------------- -/
/- Logger (logger.go), specialised to a MemorySink.                   -/
/- ----------------------------------------------------------------- -/

/-- Logger: segment capacity, the active segment, the closed flag. -/
structure Logger where
  segSize : Nat
  seg : Segment
  closed : Bool
deriving DecidableEq

/-- New (logger.go) with the SegmentSize option applied: a fresh open
logger with an empty active segment. -/
def loggerNew (size : Nat) : Logger :=
  { segSize := size, seg := NewSegmentSize size, closed := false }

/-- Logger.flush: hand the active segment to the sink's WriteSegment
(which on a MemorySink cannot fail) and start a fresh segment. -/
def loggerFlushInner (l : Logger) (sink : List Segment) : Logger × List Segment :=
  ({ l with seg := NewSegmentSize l.segSize }, memWriteSegment sink l.seg)

/-- Logger.Write: `TooBig` for payloads beyond the segment capacity
(checked before the closed flag), `LoggerClosed` when closed, otherwise
append to the active segment, flushing and retrying once on
ErrNotEnoughSpace.  The unbounded `goto` retry is modelled by `diverge`
on a second failure (unreachable for capacities below 2^63). -/
def loggerWrite (l : Logger) (sink : List Segment) (o : Offset) (p : List Nat) :
    Logger × List Segment × Option WalErr :=
  if p.length > l.segSize then (l, sink, some .tooBig)
  else if l.closed then (l, sink, some .loggerClosed)
  else
    match Segment.Write l.seg o p with
    | (s1, none) => ({ l with seg := s1 }, sink, none)
    | (_, some _) =>
      let (l1, sink1) := loggerFlushInner l sink
      match Segment.Write l1.seg o p with
      | (s2, none) => ({ l1 with seg := s2 }, sink1, none)
      | (_, some _) => (l1, sink1, some .diverge)

/-- Logger.Flush: `LoggerClosed` when closed, otherwise persist the
active segment and rotate. -/
def loggerFlush (l : Logger) (sink : List Segment) :
    Logger × List Segment × Option WalErr :=
  if l.closed then (l, sink, some .loggerClosed)
  else
    let (l1, s1) := loggerFlushInner l sink
    (l1, s1, none)

/-- Logger.Close: a closed logger returns nil immediately; otherwise
flush, close the sink (a no-op on a MemorySink) and set the flag. -/
def loggerClose (l : Logger) (sink : List Segment) :
    Logger × List Segment × Option WalErr :=
  if l.closed then (l, sink, none)
  else
    let (l1, s1) := loggerFlushInner l sink
    ({ l1 with closed := true }, s1, none)

/- ----------------------------------------------------------------- -/
/- Reader (reader.go) over a MemorySink.                              -/
/- ----------------------------------------------------------------- -/

/-- Result of one `Reader.Next` call: either a Go runtime panic
(`crash`: empty-sink index panic, nil-segment dereference, or a
non-terminating `goto NextDataChunk` loop when the fuel runs out) or a
return with the updated sink segments, reader offset, current-segment
index, recorded error and the boolean result. -/
inductive NextRes
  | crash
  | ret (segs : List Segment) (off : Int) (cur : Option Nat)
        (err : Option WalErr) (val : Bool)
deriving DecidableEq

/-- Advance the cursor of segment `i` in the sink (the segments are
shared by pointer, so the reader's `r.seg.Next()` mutates the sink's
segment in place). -/
def segNextAt (segs : List Segment) (i : Nat) : Option (List Segment × Segment × Bool) :=
  match segs[i]? with
  | none => none
  | some sg =>
    let (sg1, more) := Segment.Next sg
    some (segs.set i sg1, sg1, more)

/-- The `NextDataChunk` goto loop of Reader.Next, starting with segment
`i` loaded.  The fuel bounds the (in Go unbounded) loop; exhausting it
yields `crash`. -/
def readerLoop : Nat → List Segment → Offset → Nat → NextRes
  | 0, _, _, _ => .crash
  | fuel + 1, segs, off, i =>
    match segNextAt segs i with
    | none => .crash
    | some (segs1, sg1, more) =>
      if more then
        match Segment.CurrentReadOffset sg1 with
        | none => .crash
        | some o => .ret segs1 o (some i) none true
      else
        match memLoadSegment segs1 (i64succ off) with
        | .crash => .crash
        | .eof => .ret segs1 off (some i) none false
        | .seg j => readerLoop fuel segs1 off j

/-- Reader.Next: when no segment is loaded yet, load at the reader's
offset first.  A load that yields `io.EOF` at this stage leaves `r.seg`
nil and the subsequent `r.seg.Next()` dereferences nil — `crash`. -/
def readerNext (segs : List Segment) (off : Offset) (cur : Option Nat) : NextRes :=
  match cur with
  | some i => readerLoop (segs.length + 1) segs off i
  | none =>
    match memLoadSegment segs off with
    | .crash => .crash
    | .eof => .crash
    | .seg i => readerLoop (segs.length + 1) segs off i

/-- Drive a Reader from state `(segs, off, cur)` until `Next` returns
false, collecting `Data()` payloads; `none` models a panic (or fuel
exhaustion).  On a false return the pair is the collected payloads and
`Error()`. -/
def replay : Nat → List Segment → Offset → Option Nat → List (List Nat) →
    Option (List (List Nat) × Option WalErr)
  | 0, _, _, _, _ => none
  | fuel + 1, segs, off, cur, acc =>
    match readerNext segs off cur with
    | .crash => none
    | .ret _ _ _ err false => some (acc, err)
    | .ret segs1 off1 cur1 _ true =>
      match cur1 with
      | none => none
      | some i =>
        match segs1[i]? with
        | none => none
        | some sg =>
          match Segment.ChunkAt sg with
          | none => none
          | some c => replay fuel segs1 off1 cur1 (acc ++ [chunkData c])

/- ----------------------------------------------------------------- -/
/- Derived notions used by the statements and proofs below.           -/
/- ----------------------------------------------------------------- -/

/-- The chunk offsets of a segment, in storage order. -/
def segOffsets (sg : Segment) : List Offset := sg.chunks.map chunkOffset

/-- All chunks of a sink's segments, in replay order. -/
def sinkChunks (segs : List Segment) : List chunk := (segs.map Segment.chunks).flatten

/-- A MemorySink as produced by a sequence of Logger writes with a
strictly advancing clock: every segment is fresh (cursor -1) and
nonempty, chunk offsets are nondecreasing inside each segment, strictly
increasing across segment boundaries, and in the int64-safe positive
range. -/
abbrev WFSink (segs : List Segment) : Prop :=
  segs ≠ [] ∧
  (∀ sg ∈ segs, sg.chunkIdx = -1 ∧ sg.chunks ≠ []) ∧
  (∀ sg ∈ segs, List.Sorted (· ≤ ·) (segOffsets sg)) ∧
  List.Pairwise (fun s1 s2 => (Segment.Limits s1).2 < (Segment.Limits s2).1) segs ∧
  (∀ sg ∈ segs, ∀ c ∈ sg.chunks, 1 ≤ chunkOffset c ∧ chunkOffset c ≤ (two63 : Int) - 2)

/-- A segment with its read cursor repositioned. -/
def setIdx (sg : Segment) (k : Int) : Segment := { sg with chunkIdx := k }

/-- The sink state mid-replay: segments before index `i` are fully
consumed, segment `i` is consumed through chunk `t`, later segments are
untouched. -/
def markDone : List Segment → Nat → Nat → List Segment
  | [], _, _ => []
  | sg :: rest, 0, t => setIdx sg (t : Int) :: rest
  | sg :: rest, i + 1, t =>
      setIdx sg ((sg.chunks.length : Int) - 1) :: markDone rest i t

/-- Fold a list of `(clock offset, payload)` writes through
Segment.Write, keeping the segment regardless of per-write errors. -/
def writeSeq (s : Segment) : List (Offset × List Nat) → Segment
  | [] => s
  | (o, p) :: ws => writeSeq (Segment.Write s o p).1 ws

/-- A three-chunk segment (offsets 1, 2, 3) used to exercise
Segment.Truncate. -/
def c1seg : Segment :=
  { size := 100,
    chunks := [newChunkOffset [97] 1, newChunkOffset [98] 2, newChunkOffset [99] 3],
    chunkIdx := -1 }

/-- A two-chunk segment (offsets 1, 3) used to exercise
MemorySink.Truncate. -/
def c3seg : Segment :=
  { size := 100,
    chunks := [newChunkOffset [97] 1, newChunkOffset [98] 3],
    chunkIdx := -1 }

/-- The Logger overflow scenario: capacity 20, first 15-byte write. -/
def c6write1 : Logger × List Segment × Option WalErr :=
  loggerWrite (loggerNew 20) [] 1 (List.replicate 15 97)

/-- Second 15-byte write of the overflow scenario (forces a rotation). -/
def c6write2 : Logger × List Segment × Option WalErr :=
  loggerWrite c6write1.1 c6write1.2.1 2 (List.replicate 15 98)

/-- An explicit Flush after the two writes, persisting the second
payload's segment. -/
def c6flush : Logger × List Segment × Option WalErr :=
  loggerFlush c6write2.1 c6write2.2.1

/-- A one-chunk segment used as the serialization witness input. -/
def c8seg : Segment :=
  { size := 50, chunks := [newChunkOffset [104] 5], chunkIdx := -1 }

/-- A two-chunk segment (offsets 1, 2) for the replay witness. -/
def c5segA : Segment :=
  { size := 100,
    chunks := [newChunkOffset [97] 1, newChunkOffset [98] 2],
    chunkIdx := -1 }

/-- A one-chunk segment (offset 5) for the replay witness. -/
def c5segB : Segment :=
  { size := 100, chunks := [newChunkOffset [99] 5], chunkIdx := -1 }

/-- A two-chunk segment (offsets 4, 5) modelling the first rotated-out
segment of three sequential writes at clock values 4, 5, 5. -/
def c5segC : Segment :=
  { size := 100,
    chunks := [newChunkOffset [97] 4, newChunkOffset [98] 5],
    chunkIdx := -1 }

/-- A one-chunk segment whose single offset 5 collides with the last
offset of `c5segC` (an equal-nanosecond clock collision at a
rotation). -/
def c5segD : Segment :=
  { size := 100, chunks := [newChunkOffset [99] 5], chunkIdx := -1 }

/- ----------------------------------------------------------------- -/
/- Theorems.                                                          -/
/- ----------------------------------------------------------------- -/

theorem two64_eq_pow : two64 = 2 ^ 64 := by decide

theorem two63_eq_pow : two63 = 2 ^ 63 := by decide

theorem two64_eq_two_mul : two64 = 2 * two63 := by decide

theorem toUint64_lt (o : Int) : toUint64 o < two64 := by
  unfold toUint64 two64
  omega

theorem int64OfUint64_toUint64 (o : Int) (h1 : -(two63 : Int) ≤ o) (h2 : o < (two63 : Int)) :
    int64OfUint64 (toUint64 o) = o := by
  unfold int64OfUint64 toUint64 two63 two64 at *
  omega

theorem toUint64_int64OfUint64 (n : Nat) (h : n < two64) :
    toUint64 (int64OfUint64 n) = n := by
  unfold int64OfUint64 toUint64 two63 two64 at *
  split <;> omega

theorem int64OfUint64_range (n : Nat) (h : n < two64) :
    -(two63 : Int) ≤ int64OfUint64 n ∧ int64OfUint64 n < (two63 : Int) := by
  unfold int64OfUint64 two63 two64 at *
  split <;> omega

theorem u64sub_le (a b : Nat) (ha : a < two64) (hb : b ≤ a) : u64sub a b = a - b := by
  unfold u64sub two64 at *
  omega

theorem u64sub_gt (a b : Nat) (ha : a < two64) (hb : a < b) (hb2 : b < two64) :
    u64sub a b = two64 - (b - a) := by
  unfold u64sub two64 at *
  omega

theorem i64succ_eq (o : Int) (h1 : -(two63 : Int) ≤ o) (h2 : o ≤ (two63 : Int) - 2) :
    i64succ o = o + 1 := by
  unfold i64succ int64OfUint64 toUint64 two63 two64 at *
  split <;> omega

theorem leBytes_length (k n : Nat) : (leBytes k n).length = k := by
  induction k generalizing n with
  | zero => rfl
  | succ k ih => simp [leBytes, ih]

theorem leBytes_lt (k n : Nat) : ∀ b ∈ leBytes k n, b < 256 := by
  induction k generalizing n with
  | zero => intro b hb; simp [leBytes] at hb
  | succ k ih =>
    intro b hb
    simp only [leBytes, List.mem_cons] at hb
    rcases hb with h | h
    · omega
    · exact ih _ b h

theorem leNat_leBytes (k n : Nat) : leNat (leBytes k n) = n % 256 ^ k := by
  induction k generalizing n with
  | zero => simp [leBytes, leNat, Nat.mod_one]
  | succ k ih =>
    have h256 : (0:Nat) < 256 := by norm_num
    calc leNat (leBytes (k + 1) n) = n % 256 + 256 * (n / 256 % 256 ^ k) := by
          simp [leBytes, leNat, ih]
      _ = n % 256 ^ (k + 1) := by
          rw [pow_succ, mul_comm (256 ^ k) 256, Nat.mod_mul]

theorem leBytes_leNat (l : List Nat) (hb : ∀ b ∈ l, b < 256) :
    leBytes l.length (leNat l) = l := by
  induction l with
  | nil => rfl
  | cons b bs ih =>
    have hblt : b < 256 := hb b (List.mem_cons_self b bs)
    have hmod : (b + 256 * leNat bs) % 256 = b := by omega
    have hdiv : (b + 256 * leNat bs) / 256 = leNat bs := by omega
    simp only [List.length_cons, leBytes, leNat, hmod, hdiv]
    rw [ih (fun x hx => hb x (List.mem_cons_of_mem b hx))]

theorem leNat_lt (l : List Nat) (hb : ∀ b ∈ l, b < 256) :
    leNat l < 256 ^ l.length := by
  induction l with
  | nil => simp [leNat]
  | cons b bs ih =>
    have hblt : b < 256 := hb b (List.mem_cons_self b bs)
    have htail : leNat bs < 256 ^ bs.length :=
      ih (fun x hx => hb x (List.mem_cons_of_mem b hx))
    calc leNat (b :: bs) = b + 256 * leNat bs := rfl
      _ < 256 + 256 * leNat bs := by omega
      _ ≤ 256 * 256 ^ bs.length := by omega
      _ = 256 ^ (b :: bs).length := by rw [List.length_cons, pow_succ, mul_comm]

theorem b64idx_b64char : ∀ i, i < 64 → b64idx (b64char i) = some i := by decide

theorem b64char_ne_10 : ∀ i, i < 64 → b64char i ≠ 10 := by decide

theorem b64char_ne_58 : ∀ i, i < 64 → b64char i ≠ 58 := by decide

theorem b64encode_mem (l : List Nat) (hl : ∀ b ∈ l, b < 256) :
    ∀ x ∈ b64encode l, ∃ i, i < 64 ∧ x = b64char i := by
  match l with
  | [] => intro x hx; simp [b64encode] at hx
  | [a] =>
    have ha : a < 256 := hl a (by simp)
    intro x hx
    simp only [b64encode, List.mem_cons, List.not_mem_nil, or_false] at hx
    rcases hx with h | h
    · exact ⟨a / 4, by omega, h⟩
    · exact ⟨a % 4 * 16, by omega, h⟩
  | [a, b] =>
    have ha : a < 256 := hl a (by simp)
    have hb : b < 256 := hl b (by simp)
    intro x hx
    simp only [b64encode, List.mem_cons, List.not_mem_nil, or_false] at hx
    rcases hx with h | h | h
    · exact ⟨a / 4, by omega, h⟩
    · exact ⟨a % 4 * 16 + b / 16, by omega, h⟩
    · exact ⟨b % 16 * 4, by omega, h⟩
  | a :: b :: c :: rest =>
    have ha : a < 256 := hl a (by simp)
    have hb : b < 256 := hl b (by simp)
    have hc : c < 256 := hl c (by simp)
    have ihrest := b64encode_mem rest
      (fun x hx => hl x (by simp [hx]))
    intro x hx
    simp only [b64encode, List.mem_cons] at hx
    rcases hx with h | h | h | h | h
    · exact ⟨a / 4, by omega, h⟩
    · exact ⟨a % 4 * 16 + b / 16, by omega, h⟩
    · exact ⟨b % 16 * 4 + c / 64, by omega, h⟩
    · exact ⟨c % 64, by omega, h⟩
    · exact ihrest x h

theorem b64decode_b64encode (l : List Nat) (hl : ∀ b ∈ l, b < 256) :
    b64decode (b64encode l) = some l := by
  match l with
  | [] => rfl
  | [a] =>
    have ha : a < 256 := hl a (by simp)
    simp only [b64encode, b64decode,
      b64idx_b64char (a / 4) (by omega),
      b64idx_b64char (a % 4 * 16) (by omega)]
    have e1 : a / 4 * 4 + a % 4 * 16 / 16 = a := by omega
    rw [e1]
  | [a, b] =>
    have ha : a < 256 := hl a (by simp)
    have hb : b < 256 := hl b (by simp)
    simp only [b64encode, b64decode,
      b64idx_b64char (a / 4) (by omega),
      b64idx_b64char (a % 4 * 16 + b / 16) (by omega),
      b64idx_b64char (b % 16 * 4) (by omega)]
    congr 1
    have e1 : a / 4 * 4 + (a % 4 * 16 + b / 16) / 16 = a := by omega
    have e2 : (a % 4 * 16 + b / 16) % 16 * 16 + b % 16 * 4 / 4 = b := by omega
    rw [e1, e2]
  | a :: b :: c :: rest =>
    have ha : a < 256 := hl a (by simp)
    have hb : b < 256 := hl b (by simp)
    have hc : c < 256 := hl c (by simp)
    have ih : b64decode (b64encode rest) = some rest :=
      b64decode_b64encode rest (fun x hx => hl x (by simp [hx]))
    have hshape : b64encode (a :: b :: c :: rest) =
        b64char (a / 4) :: b64char (a % 4 * 16 + b / 16) ::
          b64char (b % 16 * 4 + c / 64) :: b64char (c % 64) :: b64encode rest := rfl
    rw [hshape]
    simp only [b64decode,
      b64idx_b64char (a / 4) (by omega),
      b64idx_b64char (a % 4 * 16 + b / 16) (by omega),
      b64idx_b64char (b % 16 * 4 + c / 64) (by omega),
      b64idx_b64char (c % 64) (by omega), ih]
    congr 1
    have e1 : a / 4 * 4 + (a % 4 * 16 + b / 16) / 16 = a := by omega
    have e2 : (a % 4 * 16 + b / 16) % 16 * 16 + (b % 16 * 4 + c / 64) / 4 = b := by omega
    have e3 : (b % 16 * 4 + c / 64) % 4 * 64 + c % 64 = c := by omega
    rw [e1, e2, e3]

theorem natToDec_digits (fuel n : Nat) (h : n ≤ fuel) :
    ∀ b ∈ natToDec fuel n, 48 ≤ b ∧ b ≤ 57 := by
  induction fuel generalizing n with
  | zero => intro b hb; simp [natToDec] at hb
  | succ fuel ih =>
    intro b hb
    simp only [natToDec] at hb
    split at hb
    · simp at hb
    · rename_i hn0
      rcases List.mem_append.mp hb with h1 | h1
      · exact ih (n / 10) (by omega) b h1
      · simp only [List.mem_singleton] at h1
        omega

theorem parseDigits_append (l1 l2 : List Nat) (acc : Nat) :
    parseDigits (l1 ++ l2) acc =
      match parseDigits l1 acc with
      | some m => parseDigits l2 m
      | none => none := by
  induction l1 generalizing acc with
  | nil => simp [parseDigits]
  | cons b bs ih =>
    simp only [List.cons_append, parseDigits]
    split
    · exact ih _
    · rfl

theorem parseDigits_natToDec (fuel n : Nat) (h : n ≤ fuel) (acc : Nat) :
    parseDigits (natToDec fuel n) acc =
      some (acc * 10 ^ (natToDec fuel n).length + n) := by
  induction fuel generalizing n acc with
  | zero =>
    have hn : n = 0 := by omega
    simp [natToDec, parseDigits, hn]
  | succ fuel ih =>
    by_cases hn0 : n = 0
    · simp [natToDec, parseDigits, hn0]
    · have hrec : n / 10 ≤ fuel := by omega
      have hshape : natToDec (fuel + 1) n = natToDec fuel (n / 10) ++ [n % 10 + 48] := by
        simp [natToDec, hn0]
      rw [hshape, parseDigits_append, ih (n / 10) hrec acc]
      have hdig : 48 ≤ n % 10 + 48 ∧ n % 10 + 48 ≤ 57 := by omega
      simp only [parseDigits, if_pos hdig, List.length_append, List.length_singleton]
      congr 1
      have : (n % 10 + 48) - 48 = n % 10 := by omega
      rw [this, pow_succ]
      ring_nf
      omega

theorem natToDec_ne_nil (fuel n : Nat) (h1 : n ≤ fuel) (h2 : 0 < n) :
    natToDec fuel n ≠ [] := by
  match fuel with
  | 0 => omega
  | fuel + 1 =>
    have hn0 : ¬ n = 0 := by omega
    simp [natToDec, hn0]

theorem parseDigits_formatNat (n : Nat) :
    parseDigits (formatNat n) 0 = some n := by
  by_cases hn : n = 0
  · simp [formatNat, hn, parseDigits]
  · simp only [formatNat, if_neg hn]
    rw [parseDigits_natToDec n n (le_refl n) 0]
    simp

theorem formatNat_digits (n : Nat) : ∀ b ∈ formatNat n, 48 ≤ b ∧ b ≤ 57 := by
  by_cases hn : n = 0
  · simp [formatNat, hn]
  · simp only [formatNat, if_neg hn]
    exact natToDec_digits n n (le_refl n)

theorem formatNat_ne_nil (n : Nat) : formatNat n ≠ [] := by
  by_cases hn : n = 0
  · simp [formatNat, hn]
  · simp only [formatNat, if_neg hn]
    exact natToDec_ne_nil n n (le_refl n) (by omega)

theorem formatInt_not_sep : ∀ o : Int, ∀ b ∈ formatInt o, b ≠ 58 ∧ b ≠ 10 := by
  intro o b hb
  unfold formatInt at hb
  split at hb
  · rcases List.mem_cons.mp hb with h | h
    · omega
    · have := formatNat_digits (-o).toNat b h
      omega
  · have := formatNat_digits o.toNat b hb
    omega

theorem formatNat_cons (n : Nat) : ∃ b bs, formatNat n = b :: bs ∧ 48 ≤ b ∧ b ≤ 57 := by
  match hm : formatNat n with
  | [] => exact absurd hm (formatNat_ne_nil _)
  | b :: bs =>
    have := formatNat_digits n b (by rw [hm]; simp)
    exact ⟨b, bs, rfl, this⟩

theorem parseInt64_formatInt (o : Int) (h1 : -(two63 : Int) ≤ o) (h2 : o < (two63 : Int)) :
    parseInt64 (formatInt o) = some o := by
  by_cases hneg : o < 0
  · have hfmt : formatInt o = 45 :: formatNat (-o).toNat := by
      simp [formatInt, hneg]
    obtain ⟨b, bs, hm, hb1, hb2⟩ := formatNat_cons (-o).toNat
    rw [hfmt, hm]
    have hparse : parseDigits (b :: bs) 0 = some (-o).toNat := by
      rw [← hm]; exact parseDigits_formatNat _
    simp only [parseInt64, if_pos rfl, hparse]
    have hle : (-o).toNat ≤ two63 := by
      unfold two63 at *
      omega
    simp only [if_pos hle, Int.toNat_of_nonneg (by omega : (0:Int) ≤ -o), neg_neg,
      if_true]
  · obtain ⟨b, bs, hm, hb1, hb2⟩ := formatNat_cons o.toNat
    have hfmt : formatInt o = b :: bs := by
      simp only [formatInt, if_neg hneg]
      exact hm
    rw [hfmt]
    have hparse : parseDigits (b :: bs) 0 = some o.toNat := by
      rw [← hm]; exact parseDigits_formatNat _
    have hb45 : ¬ b = 45 := by omega
    have hb43 : ¬ b = 43 := by omega
    simp only [parseInt64, if_neg hb45, if_neg hb43, hparse]
    have hlt : o.toNat < two63 := by
      unfold two63 at *
      omega
    simp only [if_pos hlt]
    congr 1
    omega

theorem takeWhile_append_sep (l1 l2 : List Nat)
    (h : ∀ b ∈ l1, b ≠ 58) :
    (l1 ++ 58 :: l2).takeWhile (fun b => b != 58) = l1 := by
  induction l1 with
  | nil => simp [List.takeWhile]
  | cons a l ih =>
    have ha : a ≠ 58 := h a (by simp)
    simp only [List.cons_append, List.takeWhile_cons]
    have : (a != 58) = true := by simpa using ha
    rw [this]
    simp only [if_true]
    rw [ih (fun b hb => h b (by simp [hb]))]

theorem dropWhile_append_sep (l1 l2 : List Nat)
    (h : ∀ b ∈ l1, b ≠ 58) :
    (l1 ++ 58 :: l2).dropWhile (fun b => b != 58) = 58 :: l2 := by
  induction l1 with
  | nil => simp [List.dropWhile]
  | cons a l ih =>
    have ha : a ≠ 58 := h a (by simp)
    simp only [List.cons_append, List.dropWhile_cons]
    have : (a != 58) = true := by simpa using ha
    rw [this]
    simp only [if_true]
    exact ih (fun b hb => h b (by simp [hb]))

theorem chunkOffset_newChunkOffset (data : List Nat) (o : Offset)
    (h1 : -(two63 : Int) ≤ o) (h2 : o < (two63 : Int)) :
    chunkOffset (newChunkOffset data o) = o := by
  unfold chunkOffset newChunkOffset chunkOffsetSize
  rw [List.take_append_of_le_length (by rw [leBytes_length])]
  rw [List.take_of_length_le (by rw [leBytes_length])]
  rw [leNat_leBytes]
  have hu : toUint64 o < two64 := toUint64_lt o
  have hmod : toUint64 o % 256 ^ 8 = toUint64 o := by
    apply Nat.mod_eq_of_lt
    have : (256 : Nat) ^ 8 = two64 := by decide
    omega
  rw [hmod, int64OfUint64_toUint64 o h1 h2]

theorem chunkData_newChunkOffset (data : List Nat) (o : Offset) :
    chunkData (newChunkOffset data o) = data := by
  unfold chunkData newChunkOffset chunkOffsetSize
  rw [List.drop_append_of_le_length (by rw [leBytes_length])]
  rw [List.drop_of_length_le (by rw [leBytes_length])]
  simp

theorem leNat_take8_lt (c : chunk) (hb : ∀ b ∈ c, b < 256) :
    leNat (c.take chunkOffsetSize) < two64 := by
  have hsub : ∀ b ∈ c.take chunkOffsetSize, b < 256 :=
    fun b hbm => hb b (List.take_subset _ _ hbm)
  have hlt := leNat_lt _ hsub
  have hlen : (c.take chunkOffsetSize).length ≤ 8 := by
    simp [chunkOffsetSize, List.length_take]
  have hpow : (256:Nat) ^ (c.take chunkOffsetSize).length ≤ 256 ^ 8 :=
    Nat.pow_le_pow_right (by norm_num) hlen
  have h64 : (256:Nat) ^ 8 = two64 := by decide
  omega

theorem chunkOffset_range (c : chunk) (hb : ∀ b ∈ c, b < 256) :
    -(two63 : Int) ≤ chunkOffset c ∧ chunkOffset c < (two63 : Int) := by
  unfold chunkOffset
  exact int64OfUint64_range _ (leNat_take8_lt c hb)

/-- Round-trip of the text encoding at the level of raw chunk bytes:
unmarshalling the marshalled form of a well-formed chunk restores it
exactly. -/
theorem chunk_marshal_roundtrip (c : chunk) (h8 : 8 ≤ c.length)
    (hb : ∀ b ∈ c, b < 256) :
    chunkUnmarshalText (chunkMarshalText c) = some c := by
  have hsep : ∀ b ∈ formatInt (chunkOffset c), b ≠ 58 :=
    fun b hbm => (formatInt_not_sep (chunkOffset c) b hbm).1
  have hform : chunkMarshalText c =
      formatInt (chunkOffset c) ++ 58 :: b64encode (chunkData c) := by
    unfold chunkMarshalText
    rw [List.append_assoc]
    rfl
  have hdrop := dropWhile_append_sep (formatInt (chunkOffset c)) (b64encode (chunkData c)) hsep
  have htake := takeWhile_append_sep (formatInt (chunkOffset c)) (b64encode (chunkData c)) hsep
  obtain ⟨hr1, hr2⟩ := chunkOffset_range c hb
  have hdata : ∀ b ∈ chunkData c, b < 256 := fun b h => hb b (List.drop_subset _ _ h)
  unfold chunkUnmarshalText
  rw [hform, hdrop, htake]
  simp only [parseInt64_formatInt _ hr1 hr2, b64decode_b64encode _ hdata]
  have htn : toUint64 (chunkOffset c) = leNat (c.take chunkOffsetSize) := by
    unfold chunkOffset
    exact toUint64_int64OfUint64 _ (leNat_take8_lt c hb)
  rw [htn]
  have hlen8 : (c.take chunkOffsetSize).length = chunkOffsetSize := by
    simp only [List.length_take]
    unfold chunkOffsetSize
    omega
  have hle := leBytes_leNat (c.take chunkOffsetSize)
    (fun b h => hb b (List.take_subset _ _ h))
  rw [hlen8] at hle
  rw [hle]
  unfold chunkData
  rw [List.take_append_drop]

/-- C1: the spec says `Segment.Truncate(O)` removes exactly the chunks
with offset ≤ O.  Because `Offset.After` is implemented as `Before`,
the scan breaks at the first chunk with offset < O and drops nothing:
truncating the segment with offsets [1,2,3] at 2 leaves all three
chunks (the spec and the method's own doc comment require [3]). -/
theorem c1_segment_truncate_noop :
    Segment.Truncate c1seg 2 = c1seg ∧
    c1seg.chunks.map chunkOffset = [1, 2, 3] ∧
    (Segment.Truncate c1seg 2).chunks.map chunkOffset ≠ [3] := by decide

/-- C2: `before`, `equal` and `within` realise the numeric order, but
`Offset.After` computes `a < b` instead of `a > b`: After(2,1) is false
although 2 > 1, and After(1,2) is true although 1 < 2 — contradicting
the method's own doc comment ("reports whether o is newer than b"). -/
theorem c2_offset_after_flipped :
    Offset.After 2 1 = false ∧ (2 : Int) > 1 ∧
    Offset.After 1 2 = true ∧ ¬ ((1 : Int) > 2) ∧
    Offset.Before 1 2 = true ∧ Offset.Equal 1 1 = true ∧
    Offset.Within 2 1 3 = true ∧ Offset.Within 4 1 3 = false := by decide

/-- C3: on a sink holding one segment with chunk offsets [1,3],
`Truncate(2)` should rewrite the boundary segment so that its oldest
offset is ≥ 2; because `Segment.Truncate` never drops anything (flipped
`Offset.After`), the segment survives unchanged with oldest = 1 < 2.
Truncating past every segment (offset 5) panics on `segments[0]`
instead of deleting them cleanly. -/
theorem c3_memsink_truncate_keeps_boundary :
    memTruncate [c3seg] 2 = some [c3seg] ∧
    (Segment.Limits c3seg).1 = 1 ∧ ¬ ((1 : Int) ≥ 2) ∧
    memTruncate [c3seg] 5 = none := by decide

/-- C10: on a MemorySink with zero segments, LoadSegment(ZeroOffset)
indexes `segments[0]` and panics (it does not return the EndOfLog
sentinel), Offsets() panics the same way, and the first Next() of a
fresh Reader therefore panics instead of terminating as a clean
end-of-log. -/
theorem c10_empty_sink_crash :
    memLoadSegment [] ZeroOffset = .crash ∧
    memLoadSegment [] ZeroOffset ≠ .eof ∧
    memOffsets [] = none ∧
    readerNext [] ZeroOffset none = .crash := by decide

/-- C4 as stated is false: a segment of capacity 20 accepts a 15-byte
payload (the admission check compares only the payload length against
the remaining capacity), yet the stored chunk occupies 8 + 15 = 23 raw
bytes, so the raw chunk byte sum 23 exceeds the capacity 20. -/
theorem c4_counterexample :
    (Segment.Write (NewSegmentSize 20) 1 (List.replicate 15 97)).2 = none ∧
    segRawSize (Segment.Write (NewSegmentSize 20) 1 (List.replicate 15 97)).1 = 23 ∧
    ¬ (segRawSize (Segment.Write (NewSegmentSize 20) 1 (List.replicate 15 97)).1 ≤ 20) := by
  decide

theorem remaining_eq (s : Segment) (h1 : s.size < two63) (h2 : segRawSize s ≤ two63) :
    Segment.remaining s = (s.size : Int) - (segRawSize s : Int) := by
  unfold Segment.remaining
  by_cases hle : segRawSize s ≤ s.size
  · rw [u64sub_le _ _ (by unfold two64 two63 at *; omega) hle]
    unfold int64OfUint64 two63 two64 at *
    split <;> omega
  · rw [u64sub_gt _ _ (by unfold two64 two63 at *; omega) (by omega)
      (by unfold two64 two63 at *; omega)]
    unfold int64OfUint64 two63 two64 at *
    split <;> omega

theorem newChunkOffset_length (data : List Nat) (o : Offset) :
    (newChunkOffset data o).length = 8 + data.length := by
  unfold newChunkOffset chunkOffsetSize
  simp [leBytes_length]

theorem segWrite_step (C : Nat) (hC : C + 8 < two63) (s : Segment) (o : Offset)
    (p : List Nat) (h1 : s.size = C) (h2 : segRawSize s ≤ C + 8) :
    (Segment.Write s o p).1.size = C ∧ segRawSize (Segment.Write s o p).1 ≤ C + 8 := by
  unfold Segment.Write
  by_cases hp : p = []
  · simp only [if_pos hp]
    exact ⟨h1, h2⟩
  · simp only [if_neg hp]
    by_cases hfit : (p.length : Int) > s.remaining
    · simp only [if_pos hfit]
      exact ⟨h1, h2⟩
    · simp only [if_neg hfit]
      refine ⟨h1, ?_⟩
      have hrem : Segment.remaining s = (s.size : Int) - (segRawSize s : Int) :=
        remaining_eq s (by omega) (by omega)
      have hraw : segRawSize { s with chunks := s.chunks ++ [newChunkOffset p o] } =
          segRawSize s + (8 + p.length) := by
        unfold segRawSize
        simp [newChunkOffset_length]
      rw [hraw]
      rw [hrem, h1] at hfit
      omega

theorem writeSeq_inv (C : Nat) (hC : C + 8 < two63) (ws : List (Offset × List Nat)) :
    ∀ s : Segment, s.size = C → segRawSize s ≤ C + 8 →
      (writeSeq s ws).size = C ∧ segRawSize (writeSeq s ws) ≤ C + 8 := by
  induction ws with
  | nil =>
    intro s h1 h2
    exact ⟨h1, h2⟩
  | cons w ws ih =>
    intro s h1 h2
    obtain ⟨hA, hB⟩ := segWrite_step C hC s w.1 w.2 h1 h2
    exact ih _ hA hB

/-- C4 amended: across any write sequence the raw chunk byte sum stays
within capacity plus one 8-byte offset header (the admission check
compares only the payload length, so the final accepted chunk may
overshoot by its header); a non-empty payload longer than the remaining
capacity is rejected with NotEnoughSpace and the segment — chunk
sequence included — is returned unchanged. -/
theorem c4_amended_capacity (C : Nat) (hC : C + 8 < two63)
    (ws : List (Offset × List Nat)) :
    segRawSize (writeSeq (NewSegmentSize C) ws) ≤ C + 8 ∧
    (∀ s : Segment, ∀ o : Offset, ∀ p : List Nat, p ≠ [] →
      (p.length : Int) > s.remaining →
      Segment.Write s o p = (s, some WalErr.notEnoughSpace)) := by
  constructor
  · refine (writeSeq_inv C hC ws (NewSegmentSize C) rfl ?_).2
    unfold NewSegmentSize segRawSize
    simp
  · intro s o p hp hfit
    unfold Segment.Write
    simp [hp, hfit]

theorem c4_amended_capacity_witness :
    (20 + 8 < two63) ∧
    (segRawSize (writeSeq (NewSegmentSize 20) [(1, List.replicate 15 97)]) ≤ 20 + 8 ∧
    (∀ s : Segment, ∀ o : Offset, ∀ p : List Nat, p ≠ [] →
      (p.length : Int) > s.remaining →
      Segment.Write s o p = (s, some WalErr.notEnoughSpace))) :=
  ⟨by decide, c4_amended_capacity 20 (by decide) [(1, List.replicate 15 97)]⟩

/-- C6 as stated is false in its last conjunct: right after the second
write the Sink holds exactly one segment — the rotated-out first one —
so a Reader over the Sink replays only the first payload; the second
still sits in the Logger's active segment and is not visible to the
Reader. -/
theorem c6_counterexample :
    c6write1.2.2 = none ∧ c6write2.2.2 = none ∧
    memNumSegments c6write2.2.1 = 1 ∧
    replay 10 c6write2.2.1 ZeroOffset none [] =
      some ([List.replicate 15 97], none) ∧
    List.replicate 15 98 ∉ [List.replicate 15 97] := by decide

/-- C6 amended: with capacity 20 and two 15-byte writes, both writes
succeed, the Sink's segment count is 0 after the first write and 1
after the second (exactly one internal flush, forced by the rotation),
and after one further Logger flush a Reader over the Sink recovers both
payloads in order with no error. -/
theorem c6_amended_scenario :
    c6write1.2.2 = none ∧ memNumSegments c6write1.2.1 = 0 ∧
    c6write2.2.2 = none ∧ memNumSegments c6write2.2.1 = 1 ∧
    c6flush.2.2 = none ∧ memNumSegments c6flush.2.1 = 2 ∧
    replay 10 c6flush.2.1 ZeroOffset none [] =
      some ([List.replicate 15 97, List.replicate 15 98], none) := by decide

/-- C7: for every payload and every int64 offset, unmarshalling the
marshalled text of the chunk built from them succeeds and returns the
identical chunk — same offset, same payload. -/
theorem c7_chunk_roundtrip (data : List Nat) (o : Offset)
    (hd : ∀ b ∈ data, b < 256)
    (h1 : -(two63 : Int) ≤ o) (h2 : o < (two63 : Int)) :
    chunkUnmarshalText (chunkMarshalText (newChunkOffset data o)) =
      some (newChunkOffset data o) ∧
    chunkOffset (newChunkOffset data o) = o ∧
    chunkData (newChunkOffset data o) = data := by
  refine ⟨?_, chunkOffset_newChunkOffset data o h1 h2, chunkData_newChunkOffset data o⟩
  apply chunk_marshal_roundtrip
  · rw [newChunkOffset_length]
    omega
  · intro b hb
    rcases List.mem_append.mp hb with h | h
    · exact leBytes_lt _ _ b h
    · exact hd b h

theorem c7_chunk_roundtrip_witness :
    ((∀ b ∈ [104, 105], b < 256) ∧ -(two63 : Int) ≤ 42 ∧ (42 : Int) < (two63 : Int)) ∧
    (chunkUnmarshalText (chunkMarshalText (newChunkOffset [104, 105] 42)) =
      some (newChunkOffset [104, 105] 42) ∧
    chunkOffset (newChunkOffset [104, 105] 42) = 42 ∧
    chunkData (newChunkOffset [104, 105] 42) = [104, 105]) :=
  ⟨by decide, c7_chunk_roundtrip [104, 105] 42 (by decide) (by decide) (by decide)⟩

/-- C9: closing an open Logger succeeds and marks it Closed; afterwards
any write whose payload fits the segment capacity fails with
LoggerClosed (leaving logger and sink untouched), Flush fails with
LoggerClosed, and a second Close is a no-op returning success. -/
theorem c9_logger_closed (l : Logger) (sink : List Segment) (h : l.closed = false) :
    (loggerClose l sink).2.2 = none ∧
    (loggerClose l sink).1.closed = true ∧
    (∀ o : Offset, ∀ p : List Nat, p.length ≤ (loggerClose l sink).1.segSize →
      loggerWrite (loggerClose l sink).1 (loggerClose l sink).2.1 o p =
        ((loggerClose l sink).1, (loggerClose l sink).2.1, some WalErr.loggerClosed)) ∧
    loggerFlush (loggerClose l sink).1 (loggerClose l sink).2.1 =
      ((loggerClose l sink).1, (loggerClose l sink).2.1, some WalErr.loggerClosed) ∧
    loggerClose (loggerClose l sink).1 (loggerClose l sink).2.1 =
      ((loggerClose l sink).1, (loggerClose l sink).2.1, none) := by
  have hc : loggerClose l sink =
      ({ segSize := l.segSize, seg := NewSegmentSize l.segSize, closed := true },
        memWriteSegment sink l.seg, none) := by
    simp [loggerClose, h, loggerFlushInner]
  rw [hc]
  refine ⟨rfl, rfl, ?_, ?_, ?_⟩
  · intro o p hp
    have hng : ¬ (p.length > l.segSize) := by
      simpa using hp
    simp [loggerWrite, hng]
  · simp [loggerFlush]
  · simp [loggerClose]

theorem c9_logger_closed_witness :
    ((loggerNew 20).closed = false) ∧
    ((loggerClose (loggerNew 20) []).2.2 = none ∧
    (loggerClose (loggerNew 20) []).1.closed = true ∧
    (∀ o : Offset, ∀ p : List Nat, p.length ≤ (loggerClose (loggerNew 20) []).1.segSize →
      loggerWrite (loggerClose (loggerNew 20) []).1 (loggerClose (loggerNew 20) []).2.1 o p =
        ((loggerClose (loggerNew 20) []).1, (loggerClose (loggerNew 20) []).2.1,
          some WalErr.loggerClosed)) ∧
    loggerFlush (loggerClose (loggerNew 20) []).1 (loggerClose (loggerNew 20) []).2.1 =
      ((loggerClose (loggerNew 20) []).1, (loggerClose (loggerNew 20) []).2.1,
        some WalErr.loggerClosed) ∧
    loggerClose (loggerClose (loggerNew 20) []).1 (loggerClose (loggerNew 20) []).2.1 =
      ((loggerClose (loggerNew 20) []).1, (loggerClose (loggerNew 20) []).2.1, none)) :=
  ⟨rfl, c9_logger_closed (loggerNew 20) [] rfl⟩

theorem chunkMarshalText_no_nl (c : chunk) (hb : ∀ b ∈ c, b < 256) :
    ∀ x ∈ chunkMarshalText c, x ≠ 10 := by
  intro x hx
  unfold chunkMarshalText at hx
  rcases List.mem_append.mp hx with h | h
  · rcases List.mem_append.mp h with h1 | h1
    · exact (formatInt_not_sep _ x h1).2
    · simp only [List.mem_singleton] at h1
      omega
  · obtain ⟨i, hi, hxeq⟩ :=
      b64encode_mem _ (fun b hbm => hb b (List.drop_subset _ _ hbm)) x h
    rw [hxeq]
    exact b64char_ne_10 i hi

theorem chunkMarshalText_ne_nil (c : chunk) : chunkMarshalText c ≠ [] := by
  unfold chunkMarshalText
  simp

theorem splitNL_append (l1 l2 : List Nat) (h : ∀ b ∈ l1, b ≠ 10) :
    splitNL (l1 ++ 10 :: l2) = l1 :: splitNL l2 := by
  induction l1 with
  | nil => simp [splitNL]
  | cons b bs ih =>
    have hb : b ≠ 10 := h b (by simp)
    simp only [List.cons_append, splitNL, if_neg hb, List.append_eq]
    rw [ih (fun x hx => h x (by simp [hx]))]

theorem splitNL_flatten (cs : List chunk)
    (h : ∀ c ∈ cs, ∀ b ∈ chunkMarshalText c, b ≠ 10) :
    splitNL ((cs.map (fun c => chunkMarshalText c ++ [10])).flatten) =
      cs.map chunkMarshalText ++ [[]] := by
  induction cs with
  | nil => simp [splitNL]
  | cons c cs ih =>
    simp only [List.map_cons, List.flatten_cons]
    have hass : (chunkMarshalText c ++ [10]) ++
        (cs.map (fun c2 => chunkMarshalText c2 ++ [10])).flatten =
        chunkMarshalText c ++ 10 ::
          (cs.map (fun c2 => chunkMarshalText c2 ++ [10])).flatten := by
      simp
    rw [hass, splitNL_append _ _ (h c (by simp)),
      ih (fun c2 hc2 => h c2 (by simp [hc2]))]
    simp

theorem filter_marshal (cs : List chunk) :
    ((cs.map chunkMarshalText ++ [[]]).filter (fun row => row.length != 0)) =
      cs.map chunkMarshalText := by
  rw [List.filter_append]
  have h2 : (([([] : List Nat)]).filter (fun row => row.length != 0)) = [] := rfl
  rw [h2, List.append_nil]
  rw [List.filter_eq_self]
  intro row hrow
  obtain ⟨c, _, hceq⟩ := List.mem_map.mp hrow
  have hne : row ≠ [] := by
    rw [← hceq]
    exact chunkMarshalText_ne_nil c
  simpa using fun hlen => hne (List.length_eq_zero.mp hlen)

theorem mapUnmarshal_marshal (cs : List chunk)
    (hwf : ∀ c ∈ cs, 8 ≤ c.length ∧ ∀ b ∈ c, b < 256) :
    mapUnmarshal (cs.map chunkMarshalText) = some cs := by
  induction cs with
  | nil => rfl
  | cons c cs ih =>
    obtain ⟨h8, hb⟩ := hwf c (by simp)
    simp only [List.map_cons, mapUnmarshal, chunk_marshal_roundtrip c h8 hb,
      ih (fun c2 hc2 => hwf c2 (by simp [hc2]))]

theorem encLen (cs : List chunk) :
    (cs.map (fun c => (chunkMarshalText c).length + 1)).sum =
      ((cs.map (fun c => chunkMarshalText c ++ [10])).flatten).length := by
  induction cs with
  | nil => rfl
  | cons c cs ih =>
    simp [ih]
    omega

/-- C8: serializing a populated segment and deserializing the bytes into
a fresh empty segment succeeds and reproduces the chunk sequence
exactly, and EncodedSize equals the byte length of the serialized
form. -/
theorem c8_segment_serialization (s : Segment) (sz : Nat)
    (_hne : s.chunks ≠ [])
    (hwf : ∀ c ∈ s.chunks, 8 ≤ c.length ∧ ∀ b ∈ c, b < 256) :
    (Segment.ReadFrom (NewSegmentSize sz) (Segment.WriteTo s)).map Segment.chunks =
      some s.chunks ∧
    Segment.EncodedSize s = (Segment.WriteTo s).length := by
  constructor
  · unfold Segment.ReadFrom Segment.WriteTo NewSegmentSize
    simp only [ne_eq, not_true_eq_false, if_false, not_false_eq_true]
    rw [splitNL_flatten s.chunks (fun c hc => chunkMarshalText_no_nl c (hwf c hc).2)]
    rw [filter_marshal, mapUnmarshal_marshal s.chunks hwf]
    simp
  · unfold Segment.EncodedSize Segment.WriteTo
    exact encLen s.chunks

theorem c8_segment_serialization_witness :
    (c8seg.chunks ≠ [] ∧ ∀ c ∈ c8seg.chunks, 8 ≤ c.length ∧ ∀ b ∈ c, b < 256) ∧
    ((Segment.ReadFrom (NewSegmentSize 30) (Segment.WriteTo c8seg)).map Segment.chunks =
      some c8seg.chunks ∧
    Segment.EncodedSize c8seg = (Segment.WriteTo c8seg).length) :=
  ⟨by decide, c8_segment_serialization c8seg 30 (by decide) (by decide)⟩

theorem pairwise_get {α : Type} {R : α → α → Prop} (l : List α)
    (h : List.Pairwise R l) (j k : Nat) (x y : α) (hjk : j < k)
    (hx : l[j]? = some x) (hy : l[k]? = some y) : R x y := by
  induction l generalizing j k with
  | nil => simp at hx
  | cons a l ih =>
    rcases List.pairwise_cons.mp h with ⟨ha, hl⟩
    cases j with
    | zero =>
      simp only [List.getElem?_cons_zero, Option.some_inj] at hx
      subst hx
      cases k with
      | zero => omega
      | succ k =>
        simp only [List.getElem?_cons_succ] at hy
        exact ha y (List.getElem?_mem hy)
    | succ j =>
      cases k with
      | zero => omega
      | succ k =>
        simp only [List.getElem?_cons_succ] at hx hy
        exact ih hl j k (by omega) hx hy

theorem sorted_get_le (ofs : List Int) (hs : List.Sorted (· ≤ ·) ofs) (j k : Nat)
    (x y : Int) (hjk : j ≤ k) (hx : ofs[j]? = some x) (hy : ofs[k]? = some y) :
    x ≤ y := by
  rcases Nat.lt_or_ge j k with h | h
  · exact pairwise_get ofs hs j k x y h hx hy
  · have hjeq : j = k := by omega
    subst hjeq
    rw [hx] at hy
    exact le_of_eq (Option.some_inj.mp hy)

theorem markDone_length (segs : List Segment) (i t : Nat) :
    (markDone segs i t).length = segs.length := by
  induction segs generalizing i with
  | nil => rfl
  | cons sg rest ih =>
    cases i with
    | zero => simp [markDone]
    | succ i => simp only [markDone, List.length_cons, ih]

theorem markDone_get_chunks (segs : List Segment) (i t j : Nat) :
    ((markDone segs i t)[j]?).map Segment.chunks = (segs[j]?).map Segment.chunks := by
  induction segs generalizing i j with
  | nil => rfl
  | cons sg rest ih =>
    cases i with
    | zero =>
      cases j with
      | zero => simp [markDone, setIdx]
      | succ j => simp [markDone]
    | succ i =>
      cases j with
      | zero => simp [markDone, setIdx]
      | succ j =>
        simp only [markDone, List.getElem?_cons_succ]
        exact ih i j

theorem markDone_get_self (segs : List Segment) (i t : Nat) (sg : Segment)
    (h : segs[i]? = some sg) :
    (markDone segs i t)[i]? = some (setIdx sg (t : Int)) := by
  induction segs generalizing i with
  | nil => simp at h
  | cons s0 rest ih =>
    cases i with
    | zero =>
      simp only [List.getElem?_cons_zero, Option.some_inj] at h
      subst h
      simp [markDone]
    | succ i =>
      simp only [List.getElem?_cons_succ] at h
      simp only [markDone, List.getElem?_cons_succ]
      exact ih i h

theorem markDone_get_gt (segs : List Segment) (i t j : Nat) (hij : i < j) :
    (markDone segs i t)[j]? = segs[j]? := by
  induction segs generalizing i j with
  | nil => rfl
  | cons s0 rest ih =>
    cases i with
    | zero =>
      cases j with
      | zero => omega
      | succ j => simp [markDone]
    | succ i =>
      cases j with
      | zero => omega
      | succ j =>
        simp only [markDone, List.getElem?_cons_succ]
        exact ih i j (by omega)

theorem markDone_set_self (segs : List Segment) (i t u : Nat) (sg : Segment)
    (h : segs[i]? = some sg) :
    (markDone segs i t).set i (setIdx sg (u : Int)) = markDone segs i u := by
  induction segs generalizing i with
  | nil => rfl
  | cons s0 rest ih =>
    cases i with
    | zero =>
      simp only [List.getElem?_cons_zero, Option.some_inj] at h
      subst h
      rfl
    | succ i =>
      simp only [List.getElem?_cons_succ] at h
      simp only [markDone, List.set_cons_succ]
      rw [ih i h]

theorem markDone_set_next (segs : List Segment) (i t : Nat) (sg sg1 : Segment)
    (h : segs[i]? = some sg) (ht : (t : Int) = (sg.chunks.length : Int) - 1)
    (h1 : segs[i+1]? = some sg1) :
    (markDone segs i t).set (i+1) (setIdx sg1 ((0:Nat) : Int)) = markDone segs (i+1) 0 := by
  induction segs generalizing i with
  | nil => rfl
  | cons s0 rest ih =>
    cases i with
    | zero =>
      simp only [List.getElem?_cons_zero, Option.some_inj] at h
      subst h
      simp only [List.getElem?_cons_succ] at h1
      cases rest with
      | nil => simp at h1
      | cons s1 rest2 =>
        simp only [List.getElem?_cons_zero, Option.some_inj] at h1
        subst h1
        simp only [markDone, List.set_cons_succ, List.set_cons_zero]
        rw [ht]
    | succ i =>
      simp only [List.getElem?_cons_succ] at h h1
      simp only [markDone, List.set_cons_succ]
      rw [ih i h h1]

theorem findFirst_eq_none {α : Type} (p : α → Bool) (l : List α)
    (h : ∀ (j : Nat) (x : α), l[j]? = some x → p x = false) :
    findFirst p l = none := by
  induction l with
  | nil => rfl
  | cons a l ih =>
    have ha : p a = false := h 0 a (by simp)
    simp only [findFirst, ha, Bool.false_eq_true, if_false]
    rw [ih (fun j x hx => h (j+1) x (by simpa using hx))]
    rfl

theorem findFirst_eq_some {α : Type} (p : α → Bool) (l : List α) (n : Nat) (y : α)
    (hy : l[n]? = some y) (hpy : p y = true)
    (h : ∀ (j : Nat) (x : α), j < n → l[j]? = some x → p x = false) :
    findFirst p l = some n := by
  induction l generalizing n with
  | nil => simp at hy
  | cons a l ih =>
    cases n with
    | zero =>
      simp only [List.getElem?_cons_zero, Option.some_inj] at hy
      subst hy
      simp [findFirst, hpy]
    | succ n =>
      have ha : p a = false := h 0 a (by omega) (by simp)
      simp only [findFirst, ha, Bool.false_eq_true, if_false]
      rw [ih n (by simpa using hy)
        (fun j x hj hx => h (j+1) x (by omega) (by simpa using hx))]
      rfl

theorem getElem_last_getLastD (c0 : chunk) (rest : List chunk) :
    (c0 :: rest)[rest.length]? = some (rest.getLastD c0) := by
  induction rest generalizing c0 with
  | nil => rfl
  | cons c1 rest ih =>
    simp only [List.length_cons, List.getElem?_cons_succ, List.getLastD_cons]
    exact ih c1

theorem limitsOf_spec (cs : List chunk) (hne : cs ≠ []) :
    ∃ c0 cl, cs[0]? = some c0 ∧ cs[cs.length - 1]? = some cl ∧
      limitsOf cs = (chunkOffset c0, chunkOffset cl) := by
  match cs, hne with
  | c0 :: rest, _ =>
    refine ⟨c0, rest.getLastD c0, by simp, ?_, rfl⟩
    simpa using getElem_last_getLastD c0 rest

theorem limits_bounds (cs : List chunk) (hne : cs ≠ [])
    (hs : List.Sorted (· ≤ ·) (cs.map chunkOffset)) (t : Nat) (c : chunk)
    (hc : cs[t]? = some c) :
    (limitsOf cs).1 ≤ chunkOffset c ∧ chunkOffset c ≤ (limitsOf cs).2 := by
  obtain ⟨c0, cl, h0, hl, heq⟩ := limitsOf_spec cs hne
  rw [heq]
  have ht : t < cs.length := by
    by_contra hge
    rw [List.getElem?_eq_none (by omega)] at hc
    simp at hc
  constructor
  · exact sorted_get_le _ hs 0 t _ _ (by omega)
      (by simp [List.getElem?_map, h0]) (by simp [List.getElem?_map, hc])
  · exact sorted_get_le _ hs t (cs.length - 1) _ _ (by omega)
      (by simp [List.getElem?_map, hc]) (by simp [List.getElem?_map, hl])

theorem loadPred_false (a b off1 : Int) (hab : a ≤ b) (hb : b < off1) :
    (Offset.Within off1 a b || Offset.Before off1 a) = false := by
  have h1 : Offset.Within off1 a b = false := by
    unfold Offset.Within
    have hnb : ¬ (off1 ≤ b) := by omega
    simp [hnb]
  have h2 : Offset.Before off1 a = false := by
    unfold Offset.Before
    have hna : ¬ (off1 < a) := by omega
    simp [hna]
  rw [h1, h2]
  rfl

theorem loadPred_true (a b off1 : Int) (hab : a ≤ b) (h : off1 ≤ a) :
    (Offset.Within off1 a b || Offset.Before off1 a) = true := by
  by_cases hlt : off1 < a
  · have h2 : Offset.Before off1 a = true := by
      unfold Offset.Before
      simp [hlt]
    rw [h2, Bool.or_true]
  · have h1 : Offset.Within off1 a b = true := by
      unfold Offset.Within
      have ha2 : a ≤ off1 := by omega
      have hb2 : off1 ≤ b := by omega
      simp [ha2, hb2]
    rw [h1, Bool.true_or]

theorem memLoadSegment_eof (segs1 : List Segment) (off1 : Int) (hne0 : ¬ off1 = 0)
    (hall : ∀ (j : Nat) (x : Segment), segs1[j]? = some x →
      (Segment.Limits x).1 ≤ (Segment.Limits x).2 ∧ (Segment.Limits x).2 < off1) :
    memLoadSegment segs1 off1 = .eof := by
  unfold memLoadSegment
  have heq : Offset.Equal off1 ZeroOffset = false := by
    unfold Offset.Equal ZeroOffset
    simp [hne0]
  rw [heq]
  simp only [Bool.false_eq_true, if_false]
  rw [findFirst_eq_none _ _ (fun j x hx =>
    loadPred_false _ _ _ (hall j x hx).1 (hall j x hx).2)]

theorem memLoadSegment_seg (segs1 : List Segment) (off1 : Int) (n : Nat) (y : Segment)
    (hne0 : ¬ off1 = 0)
    (hy : segs1[n]? = some y)
    (hylim : (Segment.Limits y).1 ≤ (Segment.Limits y).2 ∧ off1 ≤ (Segment.Limits y).1)
    (hleft : ∀ (j : Nat) (x : Segment), j < n → segs1[j]? = some x →
      (Segment.Limits x).1 ≤ (Segment.Limits x).2 ∧ (Segment.Limits x).2 < off1) :
    memLoadSegment segs1 off1 = .seg n := by
  unfold memLoadSegment
  have heq : Offset.Equal off1 ZeroOffset = false := by
    unfold Offset.Equal ZeroOffset
    simp [hne0]
  rw [heq]
  simp only [Bool.false_eq_true, if_false]
  rw [findFirst_eq_some _ _ n y hy (loadPred_true _ _ _ hylim.1 hylim.2)
    (fun j x hj hx => loadPred_false _ _ _ (hleft j x hj hx).1 (hleft j x hj hx).2)]

theorem segNext_advance (sg : Segment) (k : Int)
    (hk : ¬ (k + 1 = (sg.chunks.length : Int))) :
    Segment.Next (setIdx sg k) = (setIdx sg (k + 1), true) := by
  simp [Segment.Next, setIdx, hk]

theorem segNext_stop (sg : Segment) (k : Int)
    (hk : k + 1 = (sg.chunks.length : Int)) :
    Segment.Next (setIdx sg k) = (setIdx sg k, false) := by
  simp [Segment.Next, setIdx, hk]

theorem chunkAt_setIdx (sg : Segment) (t : Nat) (c : chunk)
    (hc : sg.chunks[t]? = some c) :
    Segment.ChunkAt (setIdx sg ((t : Nat) : Int)) = some c := by
  unfold Segment.ChunkAt setIdx
  simp [hc]

theorem currentReadOffset_setIdx (sg : Segment) (t : Nat) (c : chunk)
    (hc : sg.chunks[t]? = some c) :
    Segment.CurrentReadOffset (setIdx sg ((t : Nat) : Int)) = some (chunkOffset c) := by
  unfold Segment.CurrentReadOffset
  rw [chunkAt_setIdx sg t c hc]
  rfl

theorem markDone_get_orig (segs : List Segment) (i t j : Nat) (x : Segment)
    (hx : (markDone segs i t)[j]? = some x) :
    ∃ y, segs[j]? = some y ∧ x.chunks = y.chunks := by
  have h := markDone_get_chunks segs i t j
  rw [hx] at h
  match hy : segs[j]? with
  | none =>
    rw [hy] at h
    simp at h
  | some y =>
    rw [hy] at h
    exact ⟨y, rfl, by simpa using h⟩

theorem limits_le (sg : Segment) (hne : sg.chunks ≠ [])
    (hs : List.Sorted (· ≤ ·) (segOffsets sg)) :
    (Segment.Limits sg).1 ≤ (Segment.Limits sg).2 := by
  obtain ⟨c0, cl, h0, hl, heq⟩ := limitsOf_spec sg.chunks hne
  unfold Segment.Limits
  rw [heq]
  unfold segOffsets at hs
  exact sorted_get_le _ hs 0 (sg.chunks.length - 1) _ _ (by omega)
    (by simp [List.getElem?_map, h0]) (by simp [List.getElem?_map, hl])

theorem limits_snd_of_last (sg : Segment) (t : Nat) (c : chunk)
    (hc : sg.chunks[t]? = some c) (ht : t + 1 = sg.chunks.length) :
    (Segment.Limits sg).2 = chunkOffset c := by
  have hne : sg.chunks ≠ [] := by
    intro h
    rw [h] at hc
    simp at hc
  obtain ⟨c0, cl, h0, hl, heq⟩ := limitsOf_spec sg.chunks hne
  unfold Segment.Limits
  rw [heq]
  have htt : t = sg.chunks.length - 1 := by omega
  rw [htt] at hc
  rw [hc] at hl
  simp only [Option.some_inj] at hl
  rw [hl]

theorem readerLoop_stepA (segs : List Segment) (off : Int) (i t : Nat) (sg : Segment)
    (c2 : chunk) (F : Nat)
    (hsg : segs[i]? = some sg)
    (ht : t + 1 < sg.chunks.length)
    (hc2 : sg.chunks[t+1]? = some c2) :
    readerLoop (F + 1) (markDone segs i t) off i =
      .ret (markDone segs i (t+1)) (chunkOffset c2) (some i) none true := by
  have hget := markDone_get_self segs i t sg hsg
  have hne2 : ¬ ((t : Int) + 1 = (sg.chunks.length : Int)) := by
    omega
  have hnext := segNext_advance sg (t : Int) hne2
  have hcast : ((t : Int) + 1) = (((t + 1 : Nat)) : Int) := by
    push_cast
    ring
  rw [hcast] at hnext
  have hset := markDone_set_self segs i t (t+1) sg hsg
  have hcro := currentReadOffset_setIdx sg (t+1) c2 hc2
  simp only [readerLoop, segNextAt, hget, hnext, hset, hcro, if_true]

theorem readerNext_stepA (segs : List Segment) (off : Int) (i t : Nat) (sg : Segment)
    (c2 : chunk)
    (hsg : segs[i]? = some sg)
    (ht : t + 1 < sg.chunks.length)
    (hc2 : sg.chunks[t+1]? = some c2) :
    readerNext (markDone segs i t) off (some i) =
      .ret (markDone segs i (t+1)) (chunkOffset c2) (some i) none true := by
  unfold readerNext
  rw [markDone_length]
  exact readerLoop_stepA segs off i t sg c2 segs.length hsg ht hc2

theorem readerLoop_stepB (segs : List Segment) (off : Int) (i t : Nat) (sg : Segment)
    (F : Nat)
    (hsg : segs[i]? = some sg)
    (ht : (t : Int) + 1 = (sg.chunks.length : Int)) :
    readerLoop (F + 1) (markDone segs i t) off i =
      match memLoadSegment (markDone segs i t) (i64succ off) with
      | .crash => .crash
      | .eof => .ret (markDone segs i t) off (some i) none false
      | .seg j => readerLoop F (markDone segs i t) off j := by
  have hget := markDone_get_self segs i t sg hsg
  have hnext := segNext_stop sg (t : Int) ht
  have hset := markDone_set_self segs i t t sg hsg
  simp only [readerLoop, segNextAt, hget, hnext, hset, Bool.false_eq_true, if_false]

theorem readerLoop_enter (segs : List Segment) (off : Int) (i t : Nat) (sg sg1 : Segment)
    (c1 : chunk) (F : Nat)
    (hsg : segs[i]? = some sg)
    (ht : (t : Int) = (sg.chunks.length : Int) - 1)
    (hsg1 : segs[i+1]? = some sg1)
    (hidx : sg1.chunkIdx = -1)
    (hc1 : sg1.chunks[0]? = some c1) :
    readerLoop (F + 1) (markDone segs i t) off (i + 1) =
      .ret (markDone segs (i+1) 0) (chunkOffset c1) (some (i+1)) none true := by
  have hget : (markDone segs i t)[i+1]? = some sg1 := by
    rw [markDone_get_gt segs i t (i+1) (by omega)]
    exact hsg1
  have hlen1 : 0 < sg1.chunks.length := by
    by_contra hz
    rw [List.getElem?_eq_none (by omega)] at hc1
    simp at hc1
  have hnext : Segment.Next sg1 = (setIdx sg1 (((0 : Nat)) : Int), true) := by
    have hcond : ¬ (sg1.chunkIdx + 1 = (sg1.chunks.length : Int)) := by
      rw [hidx]
      omega
    unfold Segment.Next
    rw [if_neg hcond]
    unfold setIdx
    rw [hidx]
    norm_num
  have hset := markDone_set_next segs i t sg sg1 hsg ht hsg1
  have hcro := currentReadOffset_setIdx sg1 0 c1 hc1
  simp only [readerLoop, segNextAt, hget, hnext, hset, hcro, if_true]

theorem replay_inv (segs : List Segment)
    (hfresh : ∀ sg ∈ segs, sg.chunkIdx = -1 ∧ sg.chunks ≠ [])
    (hsort : ∀ sg ∈ segs, List.Sorted (· ≤ ·) (segOffsets sg))
    (hbound : List.Pairwise (fun s1 s2 => (Segment.Limits s1).2 < (Segment.Limits s2).1) segs)
    (hpos : ∀ sg ∈ segs, ∀ c ∈ sg.chunks, 1 ≤ chunkOffset c ∧ chunkOffset c ≤ (two63 : Int) - 2) :
    ∀ (fuel i t : Nat) (sg : Segment) (c : chunk) (acc : List (List Nat)),
      segs[i]? = some sg →
      sg.chunks[t]? = some c →
      (sg.chunks.drop (t+1)).length +
        (((segs.drop (i+1)).map Segment.chunks).flatten).length + 1 ≤ fuel →
      replay fuel (markDone segs i t) (chunkOffset c) (some i) acc =
        some (acc ++ (sg.chunks.drop (t+1) ++
          ((segs.drop (i+1)).map Segment.chunks).flatten).map chunkData, none) := by
  intro fuel
  induction fuel with
  | zero =>
    intro i t sg c acc hsg hc hf
    omega
  | succ fuel ih =>
    intro i t sg c acc hsg hc hf
    have hmem : sg ∈ segs := List.getElem?_mem hsg
    have hcmem : c ∈ sg.chunks := List.getElem?_mem hc
    have htlen : t < sg.chunks.length := by
      by_contra hge
      rw [List.getElem?_eq_none (by omega)] at hc
      simp at hc
    by_cases hlast : t + 1 = sg.chunks.length
    · -- last chunk of the current segment: the goto loop loads the next one
      have hti : (t : Int) + 1 = (sg.chunks.length : Int) := by omega
      have hoffb := limits_snd_of_last sg t c hc hlast
      obtain ⟨hpos1, hpos2⟩ := hpos sg hmem c hcmem
      have hsne0 : ¬ (chunkOffset c + 1 = 0) := by omega
      have hsucc : i64succ (chunkOffset c) = chunkOffset c + 1 :=
        i64succ_eq _ (by omega) (by omega)
      have hleft : ∀ (j : Nat) (x : Segment), j ≤ i →
          (markDone segs i t)[j]? = some x →
          (Segment.Limits x).1 ≤ (Segment.Limits x).2 ∧
          (Segment.Limits x).2 < chunkOffset c + 1 := by
        intro j x hj hx
        obtain ⟨y, hy, hchunks⟩ := markDone_get_orig segs i t j x hx
        have hxy : Segment.Limits x = Segment.Limits y := by
          unfold Segment.Limits
          rw [hchunks]
        have hymem : y ∈ segs := List.getElem?_mem hy
        have hyle := limits_le y (hfresh y hymem).2 (hsort y hymem)
        have hsgle := limits_le sg (hfresh sg hmem).2 (hsort sg hmem)
        rcases Nat.lt_or_ge j i with hji | hji
        · have hR := pairwise_get segs hbound j i y sg hji hy hsg
          rw [hxy]
          omega
        · have hji2 : j = i := by omega
          subst hji2
          rw [hsg] at hy
          have hysg : y = sg := (Option.some_inj.mp hy).symm
          subst hysg
          rw [hxy]
          omega
      by_cases hend : i + 1 < segs.length
      · -- a further segment exists and is adopted
        have hsg1get : segs[i+1]? = some segs[i+1] := List.getElem?_eq_getElem hend
        set sg1 := segs[i+1] with hsg1def
        have hsg1 : segs[i+1]? = some sg1 := hsg1get
        have hsg1mem : sg1 ∈ segs := List.getElem?_mem hsg1
        obtain ⟨hidx1, hne1⟩ := hfresh sg1 hsg1mem
        have hlen1 : 0 < sg1.chunks.length := List.length_pos.mpr hne1
        have hc1get : sg1.chunks[0]? = some sg1.chunks[0] := List.getElem?_eq_getElem hlen1
        set c1 := sg1.chunks[0] with hc1def
        have hc1 : sg1.chunks[0]? = some c1 := hc1get
        have hR1 := pairwise_get segs hbound i (i+1) sg sg1 (by omega) hsg hsg1
        have hlim1le := limits_le sg1 hne1 (hsort sg1 hsg1mem)
        have hload : memLoadSegment (markDone segs i t) (i64succ (chunkOffset c)) =
            .seg (i+1) := by
          rw [hsucc]
          apply memLoadSegment_seg _ _ (i+1) sg1 hsne0
          · rw [markDone_get_gt segs i t (i+1) (by omega)]
            exact hsg1
          · exact ⟨hlim1le, by omega⟩
          · intro j x hj hx
            exact hleft j x (by omega) hx
        have hstepB := readerLoop_stepB segs (chunkOffset c) i t sg segs.length hsg hti
        obtain ⟨F2, hF2⟩ : ∃ F2, segs.length = F2 + 1 := ⟨segs.length - 1, by omega⟩
        have henter := readerLoop_enter segs (chunkOffset c) i t sg sg1 c1 F2 hsg
          (by omega) hsg1 hidx1 hc1
        have hnext : readerNext (markDone segs i t) (chunkOffset c) (some i) =
            .ret (markDone segs (i+1) 0) (chunkOffset c1) (some (i+1)) none true := by
          have h0 : readerNext (markDone segs i t) (chunkOffset c) (some i) =
              readerLoop ((markDone segs i t).length + 1) (markDone segs i t)
                (chunkOffset c) i := rfl
          rw [h0, markDone_length, hstepB, hload, hF2]
          exact henter
        have hget2 := markDone_get_self segs (i+1) 0 sg1 hsg1
        have hchunk := chunkAt_setIdx sg1 0 c1 hc1
        simp only [replay, hnext, hget2, hchunk]
        have hdropsegs : segs.drop (i+1) = sg1 :: segs.drop (i+2) :=
          List.drop_eq_getElem_cons hend
        have hd1 : sg.chunks.drop (t+1) = [] := List.drop_of_length_le (by omega)
        have hfuel2 : (sg1.chunks.drop 1).length +
            (((segs.drop (i+2)).map Segment.chunks).flatten).length + 1 ≤ fuel := by
          rw [hdropsegs, hd1] at hf
          simp only [List.length_nil, List.map_cons, List.flatten_cons,
            List.length_append, List.length_drop] at hf ⊢
          omega
        rw [ih (i+1) 0 sg1 c1 (acc ++ [chunkData c1]) hsg1 hc1 hfuel2]
        rw [hd1, hdropsegs]
        have hc1cons : sg1.chunks = c1 :: sg1.chunks.drop 1 := by
          have hdz := List.drop_eq_getElem_cons hlen1
          rw [List.drop_zero] at hdz
          exact hdz
        simp only [List.nil_append, List.map_cons, List.flatten_cons]
        rw [hc1cons]
        simp [List.append_assoc]
      · -- no further segment: clean end of log
        have hload : memLoadSegment (markDone segs i t) (i64succ (chunkOffset c)) =
            .eof := by
          rw [hsucc]
          apply memLoadSegment_eof _ _ hsne0
          intro j x hx
          have hjlt : j < segs.length := by
            by_contra hge
            rw [List.getElem?_eq_none (by rw [markDone_length]; omega)] at hx
            simp at hx
          exact hleft j x (by omega) hx
        have hstepB := readerLoop_stepB segs (chunkOffset c) i t sg segs.length hsg hti
        have hnext : readerNext (markDone segs i t) (chunkOffset c) (some i) =
            .ret (markDone segs i t) (chunkOffset c) (some i) none false := by
          have h0 : readerNext (markDone segs i t) (chunkOffset c) (some i) =
              readerLoop ((markDone segs i t).length + 1) (markDone segs i t)
                (chunkOffset c) i := rfl
          rw [h0, markDone_length, hstepB, hload]
        simp only [replay, hnext]
        have hd1 : sg.chunks.drop (t+1) = [] := List.drop_of_length_le (by omega)
        have hd2 : segs.drop (i+1) = [] := List.drop_of_length_le (by omega)
        rw [hd1, hd2]
        simp
    · -- the current segment has more chunks: plain cursor advance
      have ht2 : t + 1 < sg.chunks.length := by omega
      have hc2get : sg.chunks[t+1]? = some sg.chunks[t+1] := List.getElem?_eq_getElem ht2
      set c2 := sg.chunks[t+1] with hc2def
      have hc2 : sg.chunks[t+1]? = some c2 := hc2get
      have hstep := readerNext_stepA segs (chunkOffset c) i t sg c2 hsg ht2 hc2
      have hget2 := markDone_get_self segs i (t+1) sg hsg
      have hchunk := chunkAt_setIdx sg (t+1) c2 hc2
      simp only [replay, hstep, hget2, hchunk]
      have hdrop : sg.chunks.drop (t+1) = c2 :: sg.chunks.drop (t+2) :=
        List.drop_eq_getElem_cons ht2
      have hfuel2 : (sg.chunks.drop (t+2)).length +
          (((segs.drop (i+1)).map Segment.chunks).flatten).length + 1 ≤ fuel := by
        rw [hdrop] at hf
        simp only [List.length_cons] at hf
        omega
      rw [ih i (t+1) sg c2 (acc ++ [chunkData c2]) hsg hc2 hfuel2]
      rw [hdrop]
      simp [List.append_assoc]

theorem limits_bounds_mem (sg : Segment) (hne : sg.chunks ≠ [])
    (hs : List.Sorted (· ≤ ·) (segOffsets sg)) (c : chunk) (hc : c ∈ sg.chunks) :
    (Segment.Limits sg).1 ≤ chunkOffset c ∧ chunkOffset c ≤ (Segment.Limits sg).2 := by
  obtain ⟨t, hts, ht⟩ := List.getElem_of_mem hc
  have hidx : sg.chunks[t]? = some c := by
    rw [List.getElem?_eq_getElem hts, ht]
  unfold Segment.Limits
  unfold segOffsets at hs
  exact limits_bounds sg.chunks hne hs t c hidx

theorem sinkChunks_sorted (segs : List Segment)
    (hfresh : ∀ sg ∈ segs, sg.chunkIdx = -1 ∧ sg.chunks ≠ [])
    (hsort : ∀ sg ∈ segs, List.Sorted (· ≤ ·) (segOffsets sg))
    (hbound : List.Pairwise (fun s1 s2 => (Segment.Limits s1).2 < (Segment.Limits s2).1) segs) :
    List.Sorted (· ≤ ·) ((sinkChunks segs).map chunkOffset) := by
  induction segs with
  | nil => simp [sinkChunks]
  | cons sg rest ih =>
    rcases List.pairwise_cons.mp hbound with ⟨hhead, hrest⟩
    have hsg := hsort sg (by simp)
    have hnesg := (hfresh sg (by simp)).2
    unfold sinkChunks
    simp only [List.map_cons, List.flatten_cons, List.map_append]
    refine List.pairwise_append.mpr ⟨hsg, ?_, ?_⟩
    · have := ih (fun s hsm => hfresh s (by simp [hsm]))
        (fun s hsm => hsort s (by simp [hsm])) hrest
      unfold sinkChunks at this
      exact this
    · intro x hx y hy
      obtain ⟨cx, hcx, hxeq⟩ := List.mem_map.mp hx
      obtain ⟨cy, hcy, hyeq⟩ := List.mem_map.mp hy
      obtain ⟨csy, hcsy, hcyin⟩ := List.mem_flatten.mp hcy
      obtain ⟨sgy, hsgy, hcsyeq⟩ := List.mem_map.mp hcsy
      have hcyin2 : cy ∈ sgy.chunks := by
        rw [hcsyeq]
        exact hcyin
      have hxb := (limits_bounds_mem sg hnesg hsg cx hcx).2
      have hya := (limits_bounds_mem sgy (hfresh sgy (by simp [hsgy])).2
        (hsort sgy (by simp [hsgy])) cy hcyin2).1
      have hlt := hhead sgy hsgy
      rw [← hxeq, ← hyeq] at *
      omega

theorem markDone_zero (segs : List Segment) (sg0 : Segment)
    (hsg0 : segs[0]? = some sg0) :
    segs.set 0 (setIdx sg0 (((0:Nat)) : Int)) = markDone segs 0 0 := by
  cases segs with
  | nil => rfl
  | cons s rest =>
    simp only [List.getElem?_cons_zero, Option.some_inj] at hsg0
    subst hsg0
    rfl

theorem readerLoop_start (segs : List Segment) (off : Int) (sg0 : Segment) (c0 : chunk)
    (F : Nat)
    (hsg0 : segs[0]? = some sg0)
    (hidx0 : sg0.chunkIdx = -1)
    (hc0 : sg0.chunks[0]? = some c0) :
    readerLoop (F + 1) segs off 0 =
      .ret (markDone segs 0 0) (chunkOffset c0) (some 0) none true := by
  have hlen0 : 0 < sg0.chunks.length := by
    by_contra hz
    rw [List.getElem?_eq_none (by omega)] at hc0
    simp at hc0
  have hnext : Segment.Next sg0 = (setIdx sg0 (((0:Nat)) : Int), true) := by
    have hcond : ¬ (sg0.chunkIdx + 1 = (sg0.chunks.length : Int)) := by
      rw [hidx0]
      omega
    unfold Segment.Next
    rw [if_neg hcond]
    unfold setIdx
    rw [hidx0]
    norm_num
  have hset := markDone_zero segs sg0 hsg0
  have hcro := currentReadOffset_setIdx sg0 0 c0 hc0
  simp only [readerLoop, segNextAt, hsg0, hnext, hset, hcro, if_true]

theorem readerNext_start (segs : List Segment) (sg0 : Segment) (c0 : chunk)
    (hsg0 : segs[0]? = some sg0)
    (hidx0 : sg0.chunkIdx = -1)
    (hc0 : sg0.chunks[0]? = some c0) :
    readerNext segs ZeroOffset none =
      .ret (markDone segs 0 0) (chunkOffset c0) (some 0) none true := by
  have hload : memLoadSegment segs ZeroOffset = .seg 0 := by
    unfold memLoadSegment
    have hE : Offset.Equal ZeroOffset ZeroOffset = true := by
      unfold Offset.Equal
      simp
    rw [hE]
    cases segs with
    | nil => simp at hsg0
    | cons s rest => simp
  have h0 : readerNext segs ZeroOffset none =
      match memLoadSegment segs ZeroOffset with
      | .crash => .crash
      | .eof => .crash
      | .seg i => readerLoop (segs.length + 1) segs ZeroOffset i := rfl
  rw [h0, hload]
  exact readerLoop_start segs ZeroOffset sg0 c0 segs.length hsg0 hidx0 hc0

/-- C5 as stated is false: three sequential writes at clock values
4, 5, 5 populate the sink with segment [4,5] and, after a rotation, a
segment holding one chunk at the colliding offset 5 — a population the
spec explicitly permits (equal-nanosecond offsets).  After exhausting
the first segment at offset 5, LoadSegment(6) matches neither
Within(6,5,5) nor Before(6,5), returns io.EOF, and the Reader stops
cleanly: only 2 of the 3 written payloads are replayed (the whole
second segment is silently lost) yet Error() is none. -/
theorem c5_counterexample :
    replay 5 [c5segC, c5segD] ZeroOffset none [] = some ([[97], [98]], none) ∧
    (sinkChunks [c5segC, c5segD]).map chunkData = [[97], [98], [99]] ∧
    ([[97], [98]] : List (List Nat)) ≠ [[97], [98], [99]] := by decide

/-- C5 as amended: replaying a MemorySink populated by N sequential
writes whose offsets are strictly increasing across segment boundaries
(each persisted segment fresh and nonempty, offsets nondecreasing
within a segment, positive and int64-safe) yields exactly the N
payloads in write order, the chunk offsets visited are nondecreasing,
and the run ends with Error() = none.  The boundary-strictness
restriction is forced: when a rotation happens within the same
nanosecond, the next segment starts at the previous one's last offset
and the Reader silently skips it (see the counterexample above). -/
theorem c5_reader_replay (segs : List Segment) (hwf : WFSink segs) (fuel : Nat)
    (hfuel : (sinkChunks segs).length + 1 ≤ fuel) :
    replay fuel segs ZeroOffset none [] =
      some ((sinkChunks segs).map chunkData, none) ∧
    List.Sorted (· ≤ ·) ((sinkChunks segs).map chunkOffset) := by
  obtain ⟨hne, hfresh, hsort, hbound, hpos⟩ := hwf
  refine ⟨?_, sinkChunks_sorted segs hfresh hsort hbound⟩
  cases segs with
  | nil => exact absurd rfl hne
  | cons sg0 rest =>
    have hsg0 : (sg0 :: rest)[0]? = some sg0 := by simp
    obtain ⟨hidx0, hne0⟩ := hfresh sg0 (by simp)
    have hlen0 : 0 < sg0.chunks.length := List.length_pos.mpr hne0
    have hc0get : sg0.chunks[0]? = some sg0.chunks[0] := List.getElem?_eq_getElem hlen0
    set c0 := sg0.chunks[0] with hc0def
    have hc0 : sg0.chunks[0]? = some c0 := hc0get
    have hchunks0 : sg0.chunks = c0 :: sg0.chunks.drop 1 := by
      have hdz := List.drop_eq_getElem_cons hlen0
      rw [List.drop_zero] at hdz
      exact hdz
    have hsink : sinkChunks (sg0 :: rest) =
        sg0.chunks ++ ((rest.map Segment.chunks).flatten) := by
      unfold sinkChunks
      simp
    obtain ⟨fuel1, hfuel1⟩ : ∃ fuel1, fuel = fuel1 + 1 := by
      refine ⟨fuel - 1, ?_⟩
      omega
    subst hfuel1
    have hstart := readerNext_start (sg0 :: rest) sg0 c0 hsg0 hidx0 hc0
    have hget2 := markDone_get_self (sg0 :: rest) 0 0 sg0 hsg0
    have hchunk := chunkAt_setIdx sg0 0 c0 hc0
    simp only [replay, hstart, hget2, hchunk, List.nil_append]
    have hfuel2 : (sg0.chunks.drop 1).length +
        ((rest.map Segment.chunks).flatten).length + 1 ≤ fuel1 := by
      rw [hsink] at hfuel
      rw [hchunks0] at hfuel
      simp only [List.length_append, List.length_cons] at hfuel
      omega
    rw [replay_inv (sg0 :: rest) hfresh hsort hbound hpos fuel1 0 0 sg0 c0
      [chunkData c0] hsg0 hc0 hfuel2]
    rw [hsink]
    have hdrop1 : (sg0 :: rest).drop (0+1) = rest := by simp
    rw [hdrop1]
    have hfinal : sg0.chunks ++ (rest.map Segment.chunks).flatten =
        c0 :: (sg0.chunks.drop (0+1) ++ (rest.map Segment.chunks).flatten) := by
      conv_lhs => rw [hchunks0]
      simp
    rw [hfinal]
    simp

theorem c5_reader_replay_witness :
    (WFSink [c5segA, c5segB] ∧ (sinkChunks [c5segA, c5segB]).length + 1 ≤ 4) ∧
    (replay 4 [c5segA, c5segB] ZeroOffset none [] =
      some ((sinkChunks [c5segA, c5segB]).map chunkData, none) ∧
    List.Sorted (· ≤ ·) ((sinkChunks [c5segA, c5segB]).map chunkOffset)) :=
  ⟨⟨by decide, by decide⟩, c5_reader_replay [c5segA, c5segB] (by decide) 4 (by decide)⟩
